import Mathlib

/-!
Verification of the Secure-Cloud-Storage MERN core against its
natural-language specification.

The embedding models the active storage backend (`MemStorage` in
`src/server/storage.ts`; the export at the bottom of that file selects
`new MemStorage()`) and the Express route handlers in
`src/server/routes.ts`.  JavaScript `Map`s keyed by numeric ids are
modelled as Lean lists in insertion order (`Array.from(map.values())`
enumerates insertion order); `Map.set` replaces the entry with the same
key if present and appends otherwise, `Map.delete` removes it.  `Date`
values are modelled as natural-number clocks passed in by the caller of
each operation that reads `new Date()`.  The unbounded JavaScript
recursion in `MemStorage.deleteFile` is modelled with explicit fuel;
`MemStorage.deleteFile` itself supplies `files.length + 1` fuel, which
the lemmas show is always sufficient on parent-ordered states.
-/

/-- `users` table row (`shared/schema.ts`): id, username, password, name, role. -/
structure User where
  id : Nat
  username : String
  password : String
  name : String
  role : String
deriving Repr, DecidableEq

/-- `files` table row (`shared/schema.ts`). `parentId` is nullable.
`path`/`type` are the content reference and MIME type; timestamps are
natural-number clocks. -/
structure File where
  id : Nat
  name : String
  path : String
  type : String
  size : Nat
  ownerId : Nat
  parentId : Option Nat
  isFolder : Bool
  createdAt : Nat
  updatedAt : Nat
deriving Repr, DecidableEq

/-- `file_permissions` table row (`shared/schema.ts`). -/
structure FilePermission where
  id : Nat
  fileId : Nat
  userId : Nat
  canRead : Bool
  canWrite : Bool
  canDelete : Bool
  canShare : Bool
deriving Repr, DecidableEq

/-- `activity_logs` table row (`shared/schema.ts`). -/
structure ActivityLog where
  id : Nat
  userId : Nat
  action : String
  details : String
  timestamp : Nat
deriving Repr, DecidableEq

/-- `InsertUser` (schema insert type: no id). -/
structure InsertUser where
  username : String
  password : String
  name : String
  role : String
deriving Repr, DecidableEq

/-- `InsertFile` (schema insert type: no id, no timestamps). -/
structure InsertFile where
  name : String
  path : String
  type : String
  size : Nat
  ownerId : Nat
  parentId : Option Nat
  isFolder : Bool
deriving Repr, DecidableEq

/-- `InsertFilePermission` (schema insert type: no id). -/
structure InsertFilePermission where
  fileId : Nat
  userId : Nat
  canRead : Bool
  canWrite : Bool
  canDelete : Bool
  canShare : Bool
deriving Repr, DecidableEq

/-- `InsertActivityLog` (schema insert type: no id and, crucially, no
timestamp field — the timestamp is assigned by the log itself). -/
structure InsertActivityLog where
  userId : Nat
  action : String
  details : String
deriving Repr, DecidableEq

/-- `UserRole.ADMIN` from `shared/schema.ts`. -/
def adminRole : String := "admin"

/-- In-memory storage state (`MemStorage` fields in `src/server/storage.ts`):
four JavaScript `Map`s (modelled as insertion-ordered lists) and four id
counters. -/
structure MemStorage where
  users : List User
  files : List File
  filePermissions : List FilePermission
  activityLogs : List ActivityLog
  userIdCounter : Nat
  fileIdCounter : Nat
  filePermissionIdCounter : Nat
  activityLogIdCounter : Nat
deriving Repr, DecidableEq

/-- `Map.set` on a list model: replace the entry with the same key when
present, append otherwise. -/
def mapSet (key : α → Nat) (l : List α) (v : α) : List α :=
  if l.any (fun x => key x == key v) then
    l.map (fun x => if key x == key v then v else x)
  else
    l ++ [v]

/-- `MemStorage.getUser`: `this.users.get(id)`. -/
def MemStorage.getUser (st : MemStorage) (id : Nat) : Option User :=
  st.users.find? (fun u => u.id == id)

/-- `MemStorage.getUserByUsername`: case-insensitive search over the values. -/
def MemStorage.getUserByUsername (st : MemStorage) (username : String) : Option User :=
  st.users.find? (fun u => u.username.toLower == username.toLower)

/-- `MemStorage.getFile`: `this.files.get(id)`. -/
def MemStorage.getFile (st : MemStorage) (id : Nat) : Option File :=
  st.files.find? (fun f => f.id == id)

/-- `MemStorage.getFilesByParent`: filter of the file values on
`file.parentId === parentId`. -/
def MemStorage.getFilesByParent (st : MemStorage) (parentId : Option Nat) : List File :=
  st.files.filter (fun f => f.parentId == parentId)

/-- `MemStorage.getFilesByOwner`. -/
def MemStorage.getFilesByOwner (st : MemStorage) (ownerId : Nat) : List File :=
  st.files.filter (fun f => f.ownerId == ownerId)

/-- `MemStorage.getFilePermissions`: all grants for a file. -/
def MemStorage.getFilePermissions (st : MemStorage) (fileId : Nat) : List FilePermission :=
  st.filePermissions.filter (fun p => p.fileId == fileId)

/-- `MemStorage.getUserFilePermission`: first grant matching
`(fileId, userId)`. -/
def MemStorage.getUserFilePermission (st : MemStorage) (fileId userId : Nat) :
    Option FilePermission :=
  st.filePermissions.find? (fun p => p.fileId == fileId && p.userId == userId)

/-- `MemStorage.createFile`: allocates the next file id, stamps
`createdAt = updatedAt = now`, stores the record.  Performs no validation
of the name or the parent whatsoever. -/
def MemStorage.createFile (st : MemStorage) (insert : InsertFile) (now : Nat) :
    File × MemStorage :=
  let id := st.fileIdCounter
  let file : File :=
    { id := id, name := insert.name, path := insert.path, type := insert.type,
      size := insert.size, ownerId := insert.ownerId, parentId := insert.parentId,
      isFolder := insert.isFolder, createdAt := now, updatedAt := now }
  (file, { st with files := mapSet File.id st.files file, fileIdCounter := id + 1 })

/-- `MemStorage.createUser`: allocates the next user id, stores the record,
then creates the user's "Root" folder via `createFile`. -/
def MemStorage.createUser (st : MemStorage) (insert : InsertUser) (now : Nat) :
    User × MemStorage :=
  let id := st.userIdCounter
  let user : User :=
    { id := id, username := insert.username, password := insert.password,
      name := insert.name, role := insert.role }
  let st1 : MemStorage :=
    { st with users := mapSet User.id st.users user, userIdCounter := id + 1 }
  let rootInsert : InsertFile :=
    { name := "Root", path := "/", type := "folder", size := 0,
      ownerId := id, parentId := none, isFolder := true }
  (user, (st1.createFile rootInsert now).2)

/-- `MemStorage.createFilePermission`: allocates the next permission id and
stores the grant.  No owner check, no duplicate check. -/
def MemStorage.createFilePermission (st : MemStorage) (insert : InsertFilePermission) :
    FilePermission × MemStorage :=
  let id := st.filePermissionIdCounter
  let perm : FilePermission :=
    { id := id, fileId := insert.fileId, userId := insert.userId,
      canRead := insert.canRead, canWrite := insert.canWrite,
      canDelete := insert.canDelete, canShare := insert.canShare }
  (perm, { st with filePermissions := mapSet FilePermission.id st.filePermissions perm,
                   filePermissionIdCounter := id + 1 })

/-- Patch applied by `updateFilePermission`: the share route supplies only
the four flags, so the patch carries exactly those. -/
structure PermissionFlagsPatch where
  canRead : Bool
  canWrite : Bool
  canDelete : Bool
  canShare : Bool
deriving Repr, DecidableEq

/-- `MemStorage.updateFilePermission`: find the grant by id, merge the patch,
store the merged record under the same key.  `none` models the thrown
"Permission not found" error. -/
def MemStorage.updateFilePermission (st : MemStorage) (id : Nat)
    (patch : PermissionFlagsPatch) : Option (FilePermission × MemStorage) :=
  match st.filePermissions.find? (fun p => p.id == id) with
  | none => none
  | some p =>
    let merged : FilePermission :=
      { p with canRead := patch.canRead, canWrite := patch.canWrite,
               canDelete := patch.canDelete, canShare := patch.canShare }
    some (merged,
      { st with filePermissions :=
          st.filePermissions.map (fun q => if q.id == id then merged else q) })

/-- `MemStorage.deleteFilePermission`: `Map.delete` by permission id; the
returned Bool is `deletedCount > 0`. -/
def MemStorage.deleteFilePermission (st : MemStorage) (id : Nat) : Bool × MemStorage :=
  (st.filePermissions.any (fun p => p.id == id),
   { st with filePermissions := st.filePermissions.filter (fun p => !(p.id == id)) })

/-- `MemStorage.logActivity`: allocates the next log id, stamps the record
with the log's own clock (`new Date()` inside the method — the caller
supplies no timestamp), stores it. -/
def MemStorage.logActivity (st : MemStorage) (insert : InsertActivityLog) (now : Nat) :
    ActivityLog × MemStorage :=
  let id := st.activityLogIdCounter
  let rec0 : ActivityLog :=
    { id := id, userId := insert.userId, action := insert.action,
      details := insert.details, timestamp := now }
  (rec0, { st with activityLogs := mapSet ActivityLog.id st.activityLogs rec0,
                   activityLogIdCounter := id + 1 })

/-- Stable insertion of a record into a list already sorted by descending
timestamp: walk past strictly-greater timestamps only, so an
earlier-inserted record stays before later records with equal timestamps.
Models `Array.prototype.sort` (stable) with comparator
`(a, b) => b.timestamp - a.timestamp`. -/
def insertTsDesc (r : ActivityLog) : List ActivityLog → List ActivityLog
  | [] => [r]
  | x :: xs => if r.timestamp < x.timestamp then x :: insertTsDesc r xs else r :: x :: xs

/-- Stable descending-timestamp sort (see `insertTsDesc`). -/
def sortTsDesc : List ActivityLog → List ActivityLog
  | [] => []
  | x :: xs => insertTsDesc x (sortTsDesc xs)

/-- `MemStorage.getActivityLogs`: all log values sorted by descending
timestamp. -/
def MemStorage.getActivityLogs (st : MemStorage) : List ActivityLog :=
  sortTsDesc st.activityLogs

/-- `MemStorage.getUserActivityLogs`: one user's log values sorted by
descending timestamp. -/
def MemStorage.getUserActivityLogs (st : MemStorage) (userId : Nat) : List ActivityLog :=
  sortTsDesc (st.activityLogs.filter (fun l => l.userId == userId))

/-- Events emitted by the cascading delete, in the order the corresponding
calls happen in `MemStorage.deleteFile`:
`releaseContent id` — the leaf branch releases the stored bytes (the
`if (file.path)` block; entered only for a non-empty content reference,
the on-disk `existsSync`/`unlinkSync` interaction with the external
content sink is the collaborator's side);
`deleteGrant permId` — `deleteFilePermission` on one grant scoped to the
visited node; `deleteNode id` — `this.files.delete(id)` on the visited
node's own record. -/
inductive DelEvent where
  | releaseContent (id : Nat)
  | deleteGrant (permId : Nat)
  | deleteNode (id : Nat)
deriving Repr, DecidableEq

/-- Result of one (recursive) `deleteFile` call: the returned Bool, the
storage state afterwards, and the emitted event trace. -/
structure DelRes where
  ok : Bool
  st : MemStorage
  tr : List DelEvent
deriving Repr

/-- The `for (const child of children)` loop inside `deleteFile`,
parameterized by the recursive deletion call: the child list was computed
once; each iteration recurses on the evolving state. -/
def delChildrenGo (delOne : MemStorage → Nat → DelRes) :
    MemStorage → List File → MemStorage × List DelEvent
  | st, [] => (st, [])
  | st, c :: cs =>
    let r := delOne st c.id
    let rest := delChildrenGo delOne r.st cs
    (rest.1, r.tr ++ rest.2)

/-- `MemStorage.deleteFile`, fuel-indexed.  Mirrors the source: look the
node up (absent → `false`); if it is a folder, recursively delete every
child listed at entry; otherwise release the stored content; then delete
every grant whose `fileId` is this node (collected first, then deleted one
by one by grant id); finally delete the node's own record, returning
whether it was still present. -/
def deleteFileAux : Nat → MemStorage → Nat → DelRes
  | 0, st, _ => ⟨false, st, []⟩
  | fuel + 1, st, id =>
    match st.getFile id with
    | none => ⟨false, st, []⟩
    | some file =>
      let step1 : MemStorage × List DelEvent :=
        if file.isFolder then
          delChildrenGo (deleteFileAux fuel) st (st.getFilesByParent (some id))
        else
          (st, if file.path == "" then [] else [DelEvent.releaseContent id])
      let toDel := step1.1.filePermissions.filter (fun p => p.fileId == id)
      let st2 := toDel.foldl (fun s p => (s.deleteFilePermission p.id).2) step1.1
      let ok := st2.files.any (fun f => f.id == id)
      let st3 := { st2 with files := st2.files.filter (fun f => !(f.id == id)) }
      ⟨ok, st3,
        step1.2 ++ toDel.map (fun p => DelEvent.deleteGrant p.id) ++ [DelEvent.deleteNode id]⟩

/-- The child loop at a given fuel level. -/
def deleteChildren (fuel : Nat) (st : MemStorage) (cs : List File) :
    MemStorage × List DelEvent :=
  delChildrenGo (deleteFileAux fuel) st cs

/-- Top-level `MemStorage.deleteFile`: the JavaScript recursion is
unbounded; `files.length + 1` fuel is sufficient on every parent-ordered
state (children always carry strictly larger ids than their parent, so the
recursion depth is bounded by the number of stored files). -/
def MemStorage.deleteFile (st : MemStorage) (id : Nat) : DelRes :=
  deleteFileAux (st.files.length + 1) st id

/-- Outcome of a route handler, abstracting the HTTP responses:
`created` = 201, `ok` = 200 JSON, `badRequest` = 400, `notFound` = 404,
`denied` = 403, `serverError` = 500. -/
inductive RouteResult where
  | ok
  | created
  | badRequest
  | notFound
  | denied
  | serverError
deriving Repr, DecidableEq

/-- Access decision a read-only handler reaches before doing its work. -/
inductive Decision where
  | notFound
  | badRequest
  | denied
  | allowed
deriving Repr, DecidableEq

/-- The authorization step shared verbatim by the download, delete,
permissions-listing, share and revoke handlers in `routes.ts`: owner or
admin pass immediately; otherwise a grant for `(fileId, actor)` must exist
and its flag selected by `flag` must be true.  The decision functions take
the file list and the grant list separately so that statements can
quantify over the grant state. -/
def grantGateAllows (perms : List FilePermission) (actor : User) (file : File)
    (flag : FilePermission → Bool) : Bool :=
  if file.ownerId == actor.id || actor.role == adminRole then
    true
  else
    match perms.find? (fun p => p.fileId == file.id && p.userId == actor.id) with
    | none => false
    | some p => flag p

/-- `GET /api/files/:id` (`routes.ts` 145-169): 404 if absent; owner or
admin pass; otherwise access is granted when *any* grant row for
`(fileId, actor)` exists — the handler tests only `!permission`, never a
capability flag. -/
def fileDetailDecision (files : List File) (perms : List FilePermission)
    (actor : User) (fileId : Nat) : Decision :=
  match files.find? (fun f => f.id == fileId) with
  | none => .notFound
  | some file =>
    if file.ownerId == actor.id || actor.role == adminRole then .allowed
    else
      match perms.find? (fun p => p.fileId == fileId && p.userId == actor.id) with
      | none => .denied
      | some _ => .allowed

/-- `GET /api/files/:id/download` (`routes.ts` 237-278), up to the
authorization decision: 404 if absent, 400 for a folder, then the shared
gate on the `canRead` flag.  The on-disk existence check and streaming
happen after this decision and involve only the external content sink. -/
def downloadDecision (files : List File) (perms : List FilePermission)
    (actor : User) (fileId : Nat) : Decision :=
  match files.find? (fun f => f.id == fileId) with
  | none => .notFound
  | some file =>
    if file.isFolder then .badRequest
    else if grantGateAllows perms actor file (fun p => p.canRead) then .allowed
    else .denied

/-- `DELETE /api/files/:id` (`routes.ts` 280-317), up to the authorization
decision: 404 if absent, then the shared gate on the `canDelete` flag. -/
def deleteFileDecision (files : List File) (perms : List FilePermission)
    (actor : User) (fileId : Nat) : Decision :=
  match files.find? (fun f => f.id == fileId) with
  | none => .notFound
  | some file =>
    if grantGateAllows perms actor file (fun p => p.canDelete) then .allowed else .denied

/-- `POST /api/files/:id/share` (and `GET /api/files/:id/permissions`,
`DELETE /api/files/:fileId/share/:userId`), up to the authorization
decision: 404 if absent, then the shared gate on the `canShare` flag. -/
def shareDecision (files : List File) (perms : List FilePermission)
    (actor : User) (fileId : Nat) : Decision :=
  match files.find? (fun f => f.id == fileId) with
  | none => .notFound
  | some file =>
    if grantGateAllows perms actor file (fun p => p.canShare) then .allowed else .denied

/-- In `GET /api/files` the handler calls `storage.getUserFilePermission`
WITHOUT `await` inside a plain (non-async) filter callback, so the value
tested by `!!permission` is the pending Promise object itself, and any
object is truthy in JavaScript.  This constant is that coercion. -/
def pendingPromiseTruthy : Bool := true

/-- The per-file filter of `GET /api/files` (`routes.ts` 112-134):
owner or admin pass, and every other actor passes through the truthy
pending promise. -/
def listFilesFilter (actor : User) (file : File) : Bool :=
  if file.ownerId == actor.id || actor.role == adminRole then true
  else pendingPromiseTruthy

/-- `GET /api/files`: list the children of `parentId` and apply the
per-file permission filter. -/
def listFilesHandler (st : MemStorage) (actor : User) (parentId : Option Nat) :
    List File :=
  (st.getFilesByParent parentId).filter (listFilesFilter actor)

/-- Body of `POST /api/files/:id/share`: the target user id (`0` stands for
the missing/falsy value rejected by `if (!userId)`) and the four optional
flags, merged with `??` against existing flags or creation defaults. -/
structure ShareRequest where
  userId : Nat
  canRead : Option Bool
  canWrite : Option Bool
  canDelete : Option Bool
  canShare : Option Bool
deriving Repr, DecidableEq

/-- `POST /api/files/:id/share` (`routes.ts` 347-413): validate the target
id, look the file up, authorize via the `canShare` gate, check the target
user exists, then upsert — update the existing grant for
`(fileId, userId)` merging each supplied flag over the existing one, or
create a fresh grant defaulting `canRead` to true and the rest to false.
No check whatsoever against `userId` being the file's owner.  Finally the
action is logged. -/
def shareRoute (st : MemStorage) (actor : User) (fileId : Nat) (req : ShareRequest)
    (now : Nat) : RouteResult × MemStorage :=
  if req.userId == 0 then (.badRequest, st)
  else
    match st.getFile fileId with
    | none => (.notFound, st)
    | some file =>
      if ¬ grantGateAllows st.filePermissions actor file (fun p => p.canShare) then
        (.denied, st)
      else
        match st.getUser req.userId with
        | none => (.notFound, st)
        | some targetUser =>
          let afterUpsert : Option MemStorage :=
            match st.getUserFilePermission fileId req.userId with
            | some existing =>
              match st.updateFilePermission existing.id
                  ⟨req.canRead.getD existing.canRead,
                   req.canWrite.getD existing.canWrite,
                   req.canDelete.getD existing.canDelete,
                   req.canShare.getD existing.canShare⟩ with
              | none => none
              | some r => some r.2
            | none =>
              some (st.createFilePermission
                ⟨fileId, req.userId,
                 req.canRead.getD true, req.canWrite.getD false,
                 req.canDelete.getD false, req.canShare.getD false⟩).2
          match afterUpsert with
          | none => (.serverError, st)
          | some st1 =>
            let st2 := (st1.logActivity
              ⟨actor.id, "SHARE_FILE",
               "Shared " ++ file.name ++ " with user " ++ targetUser.username⟩ now).2
            (.created, st2)

/-- `POST /api/files/folder` (`routes.ts` 171-201): reject a falsy name
(`if (!name)`), then create the folder with NO validation of `parentId`
(a request value of `0` collapses to null through `parentId || null`),
and log the action. -/
def createFolderRoute (st : MemStorage) (actor : User) (name : String)
    (parentId : Option Nat) (now : Nat) : RouteResult × Option File × MemStorage :=
  if name == "" then (.badRequest, none, st)
  else
    let pid : Option Nat :=
      match parentId with
      | some p => if p == 0 then none else some p
      | none => none
    let r := st.createFile
      ⟨name, "/", "folder", 0, actor.id, pid, true⟩ now
    let st2 := (r.2.logActivity ⟨actor.id, "CREATE_FOLDER", "Created folder: " ++ name⟩ now).2
    (.created, some r.1, st2)

/-- `POST /api/files/upload` (`routes.ts` 203-235): multer has stored the
bytes; the handler records the metadata with NO validation of `parentId`
and logs the action.  The request carries the already-extracted multer
fields. -/
def uploadRoute (st : MemStorage) (actor : User) (originalname mimetype : String)
    (size : Nat) (relativePath : String) (parentId : Option Nat) (now : Nat) :
    RouteResult × Option File × MemStorage :=
  let r := st.createFile
    ⟨originalname, relativePath, mimetype, size, actor.id, parentId, false⟩ now
  let st2 := (r.2.logActivity
    ⟨actor.id, "UPLOAD_FILE", "Uploaded file: " ++ originalname⟩ now).2
  (.created, some r.1, st2)

/-- `POST /api/users` (`routes.ts` 30-51): reject with 400 when a user with
the same username (case-insensitively, via `getUserByUsername`) already
exists; otherwise create the user (which also provisions the Root folder)
and log the action. -/
def createUserRoute (st : MemStorage) (actor : User) (req : InsertUser) (now : Nat) :
    RouteResult × MemStorage :=
  match st.getUserByUsername req.username with
  | some _ => (.badRequest, st)
  | none =>
    let r := st.createUser req now
    let st2 := (r.2.logActivity
      ⟨actor.id, "CREATE_USER", "Admin created user " ++ r.1.username⟩ now).2
    (.created, st2)

/-- Parent-ordering invariant: every stored child carries a strictly larger
id than its parent.  `MemStorage` allocates file ids from an increasing
counter and the routes set `parentId` only at creation (no reparenting
endpoint exists), so a child is always created after — hence with a larger
id than — its parent.  This is the implementation's concrete realization of
the specification's acyclicity invariant. -/
def parentOrdered (files : List File) : Prop :=
  ∀ f ∈ files, ∀ p, f.parentId = some p → p < f.id

/-- Containment invariant from the specification's data model: a node whose
record is present may be a parent only if it is a container.  Stated over
all records with the parent's id so that it is stable under deletion. -/
def folderParents (files : List File) : Prop :=
  ∀ f ∈ files, ∀ p, f.parentId = some p → ∀ g ∈ files, g.id = p → g.isFolder = true

/-- Map-key invariant: stored file records carry pairwise distinct ids. -/
def nodupFileIds (files : List File) : Prop := (files.map File.id).Nodup

/-- Map-key invariant: stored grants carry pairwise distinct ids. -/
def nodupPermIds (perms : List FilePermission) : Prop :=
  (perms.map FilePermission.id).Nodup

/-- Combined well-formedness used by the cascade theorems. -/
def storeWF (st : MemStorage) : Prop :=
  parentOrdered st.files ∧ folderParents st.files ∧
    nodupFileIds st.files ∧ nodupPermIds st.filePermissions

/-- Bolean check equivalent to `parentOrdered`, for concrete witnesses. -/
theorem parentOrdered_of_all (files : List File)
    (h : files.all (fun f =>
      match f.parentId with
      | none => true
      | some p => decide (p < f.id)) = true) : parentOrdered files := by
  intro f hf p hp
  have := List.all_eq_true.mp h f hf
  rw [hp] at this
  exact of_decide_eq_true this

/-- Bolean check equivalent to `folderParents`, for concrete witnesses. -/
theorem folderParents_of_all (files : List File)
    (h : files.all (fun f =>
      match f.parentId with
      | none => true
      | some p => files.all (fun g => !(g.id == p) || g.isFolder)) = true) :
    folderParents files := by
  intro f hf p hp g hg hgid
  have h1 := List.all_eq_true.mp h f hf
  rw [hp] at h1
  have h2 := List.all_eq_true.mp h1 g hg
  rcases Bool.or_eq_true_iff.mp h2 with h3 | h3
  · exact absurd (beq_iff_eq.mpr hgid) (by simpa using h3)
  · exact h3

/-- Membership in the subtree rooted at `root`, following stored
parent pointers upward from `x` to `root`. -/
inductive InSubtree (files : List File) (root : Nat) : Nat → Prop where
  | refl : InSubtree files root root
  | step (f : File) (p : Nat) (hmem : f ∈ files) (hp : f.parentId = some p)
      (h : InSubtree files root p) : InSubtree files root f.id

/-- Subtree membership is monotone in the file list. -/
theorem InSubtree.mono {l l2 : List File} {root x : Nat} (hsub : l ⊆ l2)
    (h : InSubtree l root x) : InSubtree l2 root x := by
  induction h with
  | refl => exact .refl
  | step f p hmem hp _ ih => exact .step f p (hsub hmem) hp ih

/-- Subtree membership composes along a chain. -/
theorem InSubtree.trans {l : List File} {root mid x : Nat}
    (h1 : InSubtree l mid x) (h2 : InSubtree l root mid) : InSubtree l root x := by
  induction h1 with
  | refl => exact h2
  | step f p hmem hp _ ih => exact .step f p hmem hp ih

/-- Under parent-ordering, every subtree member's id dominates the root. -/
theorem InSubtree.root_le {l : List File} {root x : Nat} (hord : parentOrdered l)
    (h : InSubtree l root x) : root ≤ x := by
  induction h with
  | refl => exact Nat.le_refl _
  | step f p hmem hp _ ih => exact Nat.le_trans ih (Nat.le_of_lt (hord f hmem p hp))

/-- Event `e1` occurs strictly before event `e2` in the trace. -/
def eventBefore (tr : List DelEvent) (e1 e2 : DelEvent) : Prop :=
  ∃ l1 l2, tr = l1 ++ e2 :: l2 ∧ e1 ∈ l1

/-- Embedding a trace segment into a larger trace preserves ordering. -/
theorem eventBefore_embed {tr : List DelEvent} {e1 e2 : DelEvent}
    (pre post : List DelEvent) (h : eventBefore tr e1 e2) :
    eventBefore (pre ++ tr ++ post) e1 e2 := by
  obtain ⟨l1, l2, htr, hmem⟩ := h
  exact ⟨pre ++ l1, l2 ++ post, by simp [htr], by simp [hmem]⟩

/-- Closed form of the grant-deleting fold inside `deleteFile`: the final
permission list keeps exactly the grants whose id matches none of the
collected ones, and no other component of the state changes. -/
theorem permsFold_state (ps : List FilePermission) (st : MemStorage) :
    ps.foldl (fun s p => (s.deleteFilePermission p.id).2) st
      = { st with filePermissions :=
            st.filePermissions.filter (fun q => ps.all (fun p => !(q.id == p.id))) } := by
  induction ps generalizing st with
  | nil => simp
  | cons p ps ih =>
    rw [List.foldl_cons, ih]
    simp only [MemStorage.deleteFilePermission, List.filter_filter, List.all_cons]
    congr 1
    apply List.filter_congr
    intro q _
    rw [Bool.and_comm]

/-- Running out of fuel is the identity. -/
theorem del_zero (st : MemStorage) (id : Nat) : deleteFileAux 0 st id = ⟨false, st, []⟩ := by
  rw [deleteFileAux]

/-- Deleting an absent id returns false, changes nothing and emits nothing. -/
theorem del_absent (fuel : Nat) (st : MemStorage) (id : Nat) (h : st.getFile id = none) :
    deleteFileAux fuel st id = ⟨false, st, []⟩ := by
  cases fuel with
  | zero => rw [deleteFileAux]
  | succ n => rw [deleteFileAux, h]

/-- Frame of a successful visit of a folder node. -/
theorem del_frame_folder (fuel : Nat) (st : MemStorage) (id : Nat) (file : File)
    (hf : st.getFile id = some file) (hfold : file.isFolder = true) :
    deleteFileAux (fuel + 1) st id =
      ⟨(deleteChildren fuel st (st.getFilesByParent (some id))).1.files.any (fun f => f.id == id),
       { (deleteChildren fuel st (st.getFilesByParent (some id))).1 with
           files := (deleteChildren fuel st (st.getFilesByParent (some id))).1.files.filter
             (fun f => !(f.id == id)),
           filePermissions :=
             (deleteChildren fuel st (st.getFilesByParent (some id))).1.filePermissions.filter
               (fun q =>
                 ((deleteChildren fuel st (st.getFilesByParent (some id))).1.filePermissions.filter
                   (fun p => p.fileId == id)).all (fun p => !(q.id == p.id))) },
       (deleteChildren fuel st (st.getFilesByParent (some id))).2 ++
         ((deleteChildren fuel st (st.getFilesByParent (some id))).1.filePermissions.filter
           (fun p => p.fileId == id)).map (fun p => DelEvent.deleteGrant p.id) ++
         [DelEvent.deleteNode id]⟩ := by
  rw [deleteFileAux, hf]
  simp only [hfold, if_true, permsFold_state]
  rfl

/-- Frame of a successful visit of a leaf node. -/
theorem del_frame_leaf (fuel : Nat) (st : MemStorage) (id : Nat) (file : File)
    (hf : st.getFile id = some file) (hfold : file.isFolder = false) :
    deleteFileAux (fuel + 1) st id =
      ⟨st.files.any (fun f => f.id == id),
       { st with
           files := st.files.filter (fun f => !(f.id == id)),
           filePermissions := st.filePermissions.filter
             (fun q => (st.filePermissions.filter (fun p => p.fileId == id)).all
               (fun p => !(q.id == p.id))) },
       (if file.path == "" then [] else [DelEvent.releaseContent id]) ++
         (st.filePermissions.filter (fun p => p.fileId == id)).map
           (fun p => DelEvent.deleteGrant p.id) ++
         [DelEvent.deleteNode id]⟩ := by
  rw [deleteFileAux, hf]
  simp only [hfold, if_false, Bool.false_eq_true, permsFold_state]

/-- Unfolding of the child loop. -/
theorem children_nil (fuel : Nat) (st : MemStorage) :
    deleteChildren fuel st [] = (st, []) := rfl

/-- Unfolding of the child loop at a cons cell. -/
theorem children_cons (fuel : Nat) (st : MemStorage) (c : File) (cs : List File) :
    deleteChildren fuel st (c :: cs) =
      ((deleteChildren fuel (deleteFileAux fuel st c.id).st cs).1,
       (deleteFileAux fuel st c.id).tr ++
         (deleteChildren fuel (deleteFileAux fuel st c.id).st cs).2) := rfl

/-- The cascade only ever removes file records and grant records: the
resulting lists are sublists of the input lists (file version and loop
version together). -/
theorem del_sub : ∀ fuel : Nat,
    (∀ st id, ((deleteFileAux fuel st id).st.files.Sublist st.files) ∧
      ((deleteFileAux fuel st id).st.filePermissions.Sublist st.filePermissions)) ∧
    (∀ cs st, ((deleteChildren fuel st cs).1.files.Sublist st.files) ∧
      ((deleteChildren fuel st cs).1.filePermissions.Sublist st.filePermissions)) := by
  intro fuel
  induction fuel with
  | zero =>
    constructor
    · intro st id
      rw [del_zero]
      exact ⟨List.Sublist.refl _, List.Sublist.refl _⟩
    · intro cs
      induction cs with
      | nil =>
        intro st
        rw [children_nil]
        exact ⟨List.Sublist.refl _, List.Sublist.refl _⟩
      | cons c cs ihcs =>
        intro st
        rw [children_cons, del_zero]
        exact ihcs st
  | succ n ih =>
    have hfile : ∀ st id, ((deleteFileAux (n + 1) st id).st.files.Sublist st.files) ∧
        ((deleteFileAux (n + 1) st id).st.filePermissions.Sublist st.filePermissions) := by
      intro st id
      cases hg : st.getFile id with
      | none =>
        rw [del_absent _ _ _ hg]
        exact ⟨List.Sublist.refl _, List.Sublist.refl _⟩
      | some file =>
        cases hfold : file.isFolder with
        | true =>
          rw [del_frame_folder n st id file hg hfold]
          exact ⟨(List.filter_sublist _).trans (ih.2 _ st).1,
                 (List.filter_sublist _).trans (ih.2 _ st).2⟩
        | false =>
          rw [del_frame_leaf n st id file hg hfold]
          exact ⟨List.filter_sublist _, List.filter_sublist _⟩
    refine ⟨hfile, ?_⟩
    intro cs
    induction cs with
    | nil =>
      intro st
      rw [children_nil]
      exact ⟨List.Sublist.refl _, List.Sublist.refl _⟩
    | cons c cs ihcs =>
      intro st
      rw [children_cons]
      exact ⟨(ihcs _).1.trans (hfile st c.id).1, (ihcs _).2.trans (hfile st c.id).2⟩

/-- Strict count comparison given one witness separating the predicates. -/
theorem countP_lt_of_mem {α : Type} {l : List α} {p q : α → Bool} {a : α} (ha : a ∈ l)
    (hpa : p a = false) (hqa : q a = true) (himp : ∀ x ∈ l, p x = true → q x = true) :
    l.countP p < l.countP q := by
  obtain ⟨s, t, rfl⟩ := List.append_of_mem ha
  have h1 : s.countP p ≤ s.countP q :=
    List.countP_mono_left (fun x hx => himp x (by simp [hx]))
  have h2 : t.countP p ≤ t.countP q :=
    List.countP_mono_left (fun x hx => himp x (by simp [hx]))
  rw [List.countP_append, List.countP_append, List.countP_cons, List.countP_cons, hpa, hqa]
  simp only [if_true, Bool.false_eq_true, if_false]
  omega

/-- Parent-ordering restricts to any subset of the records. -/
theorem parentOrdered_subset {l l2 : List File} (h : l ⊆ l2) (ho : parentOrdered l2) :
    parentOrdered l :=
  fun f hf p hp => ho f (h hf) p hp

/-- Containment restricts to any subset of the records. -/
theorem folderParents_subset {l l2 : List File} (h : l ⊆ l2) (ho : folderParents l2) :
    folderParents l :=
  fun f hf p hp g hg hgid => ho f (h hf) p hp g (h hg) hgid

/-- Distinct file ids restrict to sublists. -/
theorem nodupFileIds_sublist {l l2 : List File} (h : l.Sublist l2) (hn : nodupFileIds l2) :
    nodupFileIds l :=
  List.Nodup.sublist (List.Sublist.map File.id h) hn

/-- Distinct grant ids restrict to sublists. -/
theorem nodupPermIds_sublist {l l2 : List FilePermission} (h : l.Sublist l2)
    (hn : nodupPermIds l2) : nodupPermIds l :=
  List.Nodup.sublist (List.Sublist.map FilePermission.id h) hn

/-- With distinct keys, equal keys force equal records. -/
theorem nodup_key_inj {α : Type} {key : α → Nat} {l : List α}
    (hn : (l.map key).Nodup) {a b : α} (ha : a ∈ l) (hb : b ∈ l) (hk : key a = key b) :
    a = b := by
  induction l with
  | nil => cases ha
  | cons x xs ih =>
    rw [List.map_cons, List.nodup_cons] at hn
    rcases List.mem_cons.mp ha with rfl | ha2
    · rcases List.mem_cons.mp hb with rfl | hb2
      · rfl
      · exact absurd (hk ▸ List.mem_map_of_mem key hb2) hn.1
    · rcases List.mem_cons.mp hb with rfl | hb2
      · exact absurd (hk ▸ List.mem_map_of_mem key ha2) hn.1
      · exact ih hn.2 ha2 hb2

/-- Membership facts carried by the child list. -/
theorem mem_children {st : MemStorage} {id : Nat} {c : File}
    (h : c ∈ st.getFilesByParent (some id)) : c ∈ st.files ∧ c.parentId = some id := by
  have h2 := List.mem_filter.mp h
  exact ⟨h2.1, by simpa using h2.2⟩

/-- A full visit removes every record bearing the visited id. -/
theorem del_node_gone (fuel : Nat) (st : MemStorage) (id : Nat) (hfuel : 1 ≤ fuel) :
    ∀ x ∈ (deleteFileAux fuel st id).st.files, x.id ≠ id := by
  intro x hx
  cases fuel with
  | zero => omega
  | succ n =>
    cases hg : st.getFile id with
    | none =>
      rw [del_absent _ _ _ hg] at hx
      have := List.find?_eq_none.mp hg x hx
      simpa using this
    | some file =>
      cases hfold : file.isFolder with
      | true =>
        rw [del_frame_folder n st id file hg hfold] at hx
        have := (List.mem_filter.mp hx).2
        simpa using this
      | false =>
        rw [del_frame_leaf n st id file hg hfold] at hx
        have := (List.mem_filter.mp hx).2
        simpa using this

/-- Loop version of `del_node_gone`: after the loop no record bearing any
listed child's id survives. -/
theorem children_gone (fuel : Nat) (st : MemStorage) (cs : List File) (hfuel : 1 ≤ fuel) :
    ∀ c ∈ cs, ∀ x ∈ (deleteChildren fuel st cs).1.files, x.id ≠ c.id := by
  induction cs generalizing st with
  | nil => intro c hc; cases hc
  | cons c0 cs ih =>
    intro c hc x hx
    rw [children_cons] at hx
    rcases List.mem_cons.mp hc with rfl | hc2
    · have hx2 : x ∈ (deleteFileAux fuel st c.id).st.files :=
        ((del_sub fuel).2 cs (deleteFileAux fuel st c.id).st).1.subset hx
      exact del_node_gone fuel st c.id hfuel x hx2
    · exact ih (deleteFileAux fuel st c0.id).st c hc2 x hx

/-- Every record the cascade removes lies in the subtree of the visited
node (file version), respectively of one of the listed children (loop
version), where the subtree is taken in the entry state. -/
theorem del_removed_subtree : ∀ fuel : Nat,
    (∀ st id, ∀ f ∈ st.files, f ∉ (deleteFileAux fuel st id).st.files →
      InSubtree st.files id f.id) ∧
    (∀ cs st, ∀ f ∈ st.files, f ∉ (deleteChildren fuel st cs).1.files →
      ∃ c ∈ cs, InSubtree st.files c.id f.id) := by
  intro fuel
  induction fuel with
  | zero =>
    constructor
    · intro st id f hf hout
      rw [del_zero] at hout
      exact absurd hf hout
    · intro cs
      induction cs with
      | nil =>
        intro st f hf hout
        rw [children_nil] at hout
        exact absurd hf hout
      | cons c cs ihcs =>
        intro st f hf hout
        rw [children_cons, del_zero] at hout
        obtain ⟨c2, hc2, hsub⟩ := ihcs st f hf hout
        exact ⟨c2, List.mem_cons_of_mem _ hc2, hsub⟩
  | succ n ih =>
    have hfile : ∀ st id, ∀ f ∈ st.files, f ∉ (deleteFileAux (n + 1) st id).st.files →
        InSubtree st.files id f.id := by
      intro st id f hf hout
      cases hg : st.getFile id with
      | none =>
        rw [del_absent _ _ _ hg] at hout
        exact absurd hf hout
      | some file =>
        cases hfold : file.isFolder with
        | true =>
          rw [del_frame_folder n st id file hg hfold] at hout
          by_cases hmid : f ∈ (deleteChildren n st (st.getFilesByParent (some id))).1.files
          · have : ¬ (!(f.id == id)) = true := by
              intro hb
              exact hout (List.mem_filter.mpr ⟨hmid, hb⟩)
            have : f.id = id := by simpa using this
            exact this ▸ InSubtree.refl
          · obtain ⟨c, hc, hsub⟩ := ih.2 (st.getFilesByParent (some id)) st f hf hmid
            obtain ⟨hcmem, hcpar⟩ := mem_children hc
            exact hsub.trans (InSubtree.step c id hcmem hcpar InSubtree.refl)
        | false =>
          rw [del_frame_leaf n st id file hg hfold] at hout
          have : ¬ (!(f.id == id)) = true := by
            intro hb
            exact hout (List.mem_filter.mpr ⟨hf, hb⟩)
          have : f.id = id := by simpa using this
          exact this ▸ InSubtree.refl
    refine ⟨hfile, ?_⟩
    intro cs
    induction cs with
    | nil =>
      intro st f hf hout
      rw [children_nil] at hout
      exact absurd hf hout
    | cons c cs ihcs =>
      intro st f hf hout
      rw [children_cons] at hout
      by_cases hmid : f ∈ (deleteFileAux (n + 1) st c.id).st.files
      · obtain ⟨c2, hc2, hsub⟩ := ihcs (deleteFileAux (n + 1) st c.id).st f hmid hout
        exact ⟨c2, List.mem_cons_of_mem _ hc2,
          hsub.mono ((del_sub (n + 1)).1 st c.id).1.subset⟩
      · exact ⟨c, List.mem_cons_self _ _, hfile st c.id f hf hmid⟩

/-- A visit of a present node returns true: the recursion into the children
never removes the root itself on a parent-ordered state. -/
theorem del_ok (fuel : Nat) (st : MemStorage) (id : Nat) (file : File)
    (hord : parentOrdered st.files) (hg : st.getFile id = some file) :
    (deleteFileAux (fuel + 1) st id).ok = true := by
  have hmem : file ∈ st.files := List.mem_of_find?_eq_some hg
  have hid : file.id = id := by simpa using List.find?_some hg
  cases hfold : file.isFolder with
  | true =>
    rw [del_frame_folder fuel st id file hg hfold]
    have hkeep : file ∈ (deleteChildren fuel st (st.getFilesByParent (some id))).1.files := by
      by_contra hgone
      obtain ⟨c, hc, hsub⟩ :=
        (del_removed_subtree fuel).2 (st.getFilesByParent (some id)) st file hmem hgone
      obtain ⟨hcmem, hcpar⟩ := mem_children hc
      have h1 : c.id ≤ file.id := hsub.root_le hord
      have h2 : id < c.id := hord c hcmem id hcpar
      omega
    exact List.any_eq_true.mpr ⟨file, hkeep, by simpa using hid⟩
  | false =>
    rw [del_frame_leaf fuel st id file hg hfold]
    exact List.any_eq_true.mpr ⟨file, hmem, by simpa using hid⟩

/-- Fuel bound used through the recursion: more fuel than the number of
stored records with an id above the visited one. -/
def suffFuel (fuel : Nat) (st : MemStorage) (id : Nat) : Prop :=
  st.files.countP (fun f => id < f.id) < fuel

/-- Fuel propagation from a node to one of its children. -/
theorem suffFuel_child {n : Nat} {st stx : MemStorage} {id : Nat} {c : File}
    (hsub : stx.files.Sublist st.files) (hc : c ∈ st.files) (hcid : id < c.id)
    (hsuff : suffFuel (n + 1) st id) : suffFuel n stx c.id := by
  have h1 : stx.files.countP (fun f => c.id < f.id) ≤
      st.files.countP (fun f => c.id < f.id) := hsub.countP_le _
  have h2 : st.files.countP (fun f => c.id < f.id) <
      st.files.countP (fun f => id < f.id) := by
    refine countP_lt_of_mem hc (by simp) (by simpa using hcid) ?_
    intro x _ hx
    simp only [decide_eq_true_eq] at hx ⊢
    omega
  have h3 := hsuff
  unfold suffFuel at h3 ⊢
  omega

/-- Fuel sufficiency transfers to smaller states. -/
theorem suffFuel_mono {fuel : Nat} {st stx : MemStorage} {id : Nat}
    (hsub : stx.files.Sublist st.files) (h : suffFuel fuel st id) : suffFuel fuel stx id :=
  Nat.lt_of_le_of_lt (hsub.countP_le _) h

/-- The loop with no fuel is the identity. -/
theorem children_zero (st : MemStorage) (cs : List File) :
    deleteChildren 0 st cs = (st, []) := by
  induction cs generalizing st with
  | nil => rw [children_nil]
  | cons c cs ih => rw [children_cons, del_zero]; simpa using ih st

/-- Key dangling-parent lemma: a record that survives the cascade never
loses its parent record — if the parent's record existed at entry it still
exists at exit.  File version and loop version together. -/
theorem del_dangle : ∀ fuel : Nat,
    (∀ st id, parentOrdered st.files → folderParents st.files → suffFuel fuel st id →
      ∀ f ∈ (deleteFileAux fuel st id).st.files, ∀ p, f.parentId = some p →
        (∃ g ∈ st.files, g.id = p) →
        ∃ g ∈ (deleteFileAux fuel st id).st.files, g.id = p) ∧
    (∀ cs st, parentOrdered st.files → folderParents st.files →
      (∀ c ∈ cs, suffFuel fuel st c.id) →
      ∀ f ∈ (deleteChildren fuel st cs).1.files, ∀ p, f.parentId = some p →
        (∃ g ∈ st.files, g.id = p) →
        ∃ g ∈ (deleteChildren fuel st cs).1.files, g.id = p) := by
  intro fuel
  induction fuel with
  | zero =>
    constructor
    · intro st id _ _ _ f _ p _ hg
      rw [del_zero]
      exact hg
    · intro cs st _ _ _ f _ p _ hg
      rw [children_zero]
      exact hg
  | succ n ih =>
    have hfile : ∀ st id, parentOrdered st.files → folderParents st.files →
        suffFuel (n + 1) st id →
        ∀ f ∈ (deleteFileAux (n + 1) st id).st.files, ∀ p, f.parentId = some p →
          (∃ g ∈ st.files, g.id = p) →
          ∃ g ∈ (deleteFileAux (n + 1) st id).st.files, g.id = p := by
      intro st id hord hfp hsuff f hf p hp hg
      cases hgf : st.getFile id with
      | none =>
        rw [del_absent _ _ _ hgf] at hf ⊢
        exact hg
      | some file =>
        have hfilemem : file ∈ st.files := List.mem_of_find?_eq_some hgf
        have hfileid : file.id = id := by simpa using List.find?_some hgf
        cases hfold : file.isFolder with
        | true =>
          rw [del_frame_folder n st id file hgf hfold] at hf ⊢
          have hfin := List.mem_filter.mp hf
          have hfid : f.id ≠ id := by simpa using hfin.2
          have hfmem0 : f ∈ st.files :=
            ((del_sub n).2 (st.getFilesByParent (some id)) st).1.subset hfin.1
          have hcs : ∀ c ∈ st.getFilesByParent (some id), suffFuel n st c.id := by
            intro c hc
            obtain ⟨hcm, hcp⟩ := mem_children hc
            exact suffFuel_child (List.Sublist.refl _) hcm (hord c hcm id hcp) hsuff
          obtain ⟨g1, hg1, hg1id⟩ :=
            ih.2 (st.getFilesByParent (some id)) st hord hfp hcs f hfin.1 p hp hg
          by_cases hpid : p = id
          · exfalso
            have hfchild : f ∈ st.getFilesByParent (some id) :=
              List.mem_filter.mpr ⟨hfmem0, by simp [hp, hpid]⟩
            cases n with
            | zero =>
              have : st.files.countP (fun f => id < f.id) = 0 := by
                have := hsuff
                unfold suffFuel at this
                omega
              have hcnt := List.countP_eq_zero.mp this f hfmem0
              have : id < f.id := hord f hfmem0 id (hpid ▸ hp)
              simp only [decide_eq_true_eq] at hcnt
              omega
            | succ m =>
              exact children_gone (m + 1) st (st.getFilesByParent (some id))
                (by omega) f hfchild f hfin.1 rfl
          · exact ⟨g1, List.mem_filter.mpr ⟨hg1, by simp [hg1id, hpid]⟩, hg1id⟩
        | false =>
          rw [del_frame_leaf n st id file hgf hfold] at hf ⊢
          have hfin := List.mem_filter.mp hf
          by_cases hpid : p = id
          · exfalso
            have : file.isFolder = true := hfp f hfin.1 p hp file hfilemem (hpid ▸ hfileid)
            rw [hfold] at this
            exact Bool.false_ne_true this
          · obtain ⟨g1, hg1, hg1id⟩ := hg
            exact ⟨g1, List.mem_filter.mpr ⟨hg1, by simp [hg1id, hpid]⟩, hg1id⟩
    refine ⟨hfile, ?_⟩
    intro cs
    induction cs with
    | nil =>
      intro st _ _ _ f _ p _ hg
      rw [children_nil]
      exact hg
    | cons c cs ihcs =>
      intro st hord hfp hcs f hf p hp hg
      rw [children_cons] at hf ⊢
      have hsubr := ((del_sub (n + 1)).1 st c.id).1
      have hf1 : f ∈ (deleteFileAux (n + 1) st c.id).st.files :=
        ((del_sub (n + 1)).2 cs (deleteFileAux (n + 1) st c.id).st).1.subset hf
      have hg1 := hfile st c.id hord hfp (hcs c (List.mem_cons_self _ _)) f hf1 p hp hg
      exact ihcs (deleteFileAux (n + 1) st c.id).st
        (parentOrdered_subset hsubr.subset hord)
        (folderParents_subset hsubr.subset hfp)
        (fun c2 hc2 => suffFuel_mono hsubr (hcs c2 (List.mem_cons_of_mem _ hc2)))
        f hf p hp hg1

/-- A grant that survives a visit never references the visited id. -/
theorem perm_survivor_ne {perms : List FilePermission} {id : Nat} {q : FilePermission}
    (hq : q ∈ perms.filter
      (fun q => (perms.filter (fun p => p.fileId == id)).all (fun p => !(q.id == p.id)))) :
    q ∈ perms ∧ q.fileId ≠ id := by
  have h := List.mem_filter.mp hq
  refine ⟨h.1, ?_⟩
  intro hcon
  have hmem : q ∈ perms.filter (fun p => p.fileId == id) :=
    List.mem_filter.mpr ⟨h.1, by simp [hcon]⟩
  have := List.all_eq_true.mp h.2 q hmem
  simp at this

/-- Orphaned-grant prevention: a grant that survives the cascade never
loses the record of the file it references — if that record existed at
entry it still exists at exit.  File and loop versions together. -/
theorem del_perm_file : ∀ fuel : Nat,
    (∀ st id, parentOrdered st.files → suffFuel fuel st id →
      ∀ q ∈ (deleteFileAux fuel st id).st.filePermissions,
        (∃ g ∈ st.files, g.id = q.fileId) →
        ∃ g ∈ (deleteFileAux fuel st id).st.files, g.id = q.fileId) ∧
    (∀ cs st, parentOrdered st.files → (∀ c ∈ cs, suffFuel fuel st c.id) →
      ∀ q ∈ (deleteChildren fuel st cs).1.filePermissions,
        (∃ g ∈ st.files, g.id = q.fileId) →
        ∃ g ∈ (deleteChildren fuel st cs).1.files, g.id = q.fileId) := by
  intro fuel
  induction fuel with
  | zero =>
    constructor
    · intro st id _ _ q _ hg
      rw [del_zero]
      exact hg
    · intro cs st _ _ q _ hg
      rw [children_zero]
      exact hg
  | succ n ih =>
    have hfile : ∀ st id, parentOrdered st.files → suffFuel (n + 1) st id →
        ∀ q ∈ (deleteFileAux (n + 1) st id).st.filePermissions,
          (∃ g ∈ st.files, g.id = q.fileId) →
          ∃ g ∈ (deleteFileAux (n + 1) st id).st.files, g.id = q.fileId := by
      intro st id hord hsuff q hq hg
      cases hgf : st.getFile id with
      | none =>
        rw [del_absent _ _ _ hgf] at hq ⊢
        exact hg
      | some file =>
        cases hfold : file.isFolder with
        | true =>
          rw [del_frame_folder n st id file hgf hfold] at hq ⊢
          obtain ⟨hq1, hqne⟩ := perm_survivor_ne hq
          have hcs : ∀ c ∈ st.getFilesByParent (some id), suffFuel n st c.id := by
            intro c hc
            obtain ⟨hcm, hcp⟩ := mem_children hc
            exact suffFuel_child (List.Sublist.refl _) hcm (hord c hcm id hcp) hsuff
          obtain ⟨g1, hg1, hg1id⟩ :=
            ih.2 (st.getFilesByParent (some id)) st hord hcs q hq1 hg
          exact ⟨g1, List.mem_filter.mpr ⟨hg1, by simp [hg1id, hqne]⟩, hg1id⟩
        | false =>
          rw [del_frame_leaf n st id file hgf hfold] at hq ⊢
          obtain ⟨hq1, hqne⟩ := perm_survivor_ne hq
          obtain ⟨g1, hg1, hg1id⟩ := hg
          exact ⟨g1, List.mem_filter.mpr ⟨hg1, by simp [hg1id, hqne]⟩, hg1id⟩
    refine ⟨hfile, ?_⟩
    intro cs
    induction cs with
    | nil =>
      intro st _ _ q _ hg
      rw [children_nil]
      exact hg
    | cons c cs ihcs =>
      intro st hord hcs q hq hg
      rw [children_cons] at hq ⊢
      have hsubr := ((del_sub (n + 1)).1 st c.id).1
      have hq1 : q ∈ (deleteFileAux (n + 1) st c.id).st.filePermissions :=
        ((del_sub (n + 1)).2 cs (deleteFileAux (n + 1) st c.id).st).2.subset hq
      have hg1 := hfile st c.id hord (hcs c (List.mem_cons_self _ _)) q hq1 hg
      exact ihcs (deleteFileAux (n + 1) st c.id).st
        (parentOrdered_subset hsubr.subset hord)
        (fun c2 hc2 => suffFuel_mono hsubr (hcs c2 (List.mem_cons_of_mem _ hc2)))
        q hq hg1

/-- Extraction of a witness from a failing `all`. -/
theorem not_all_exists {α : Type} {l : List α} {p : α → Bool} (h : ¬ l.all p = true) :
    ∃ x ∈ l, p x = false := by
  rw [List.all_eq_true] at h
  push_neg at h
  obtain ⟨x, hx, hpx⟩ := h
  exact ⟨x, hx, Bool.eq_false_iff.mpr hpx⟩

/-- An element of the base list missing from a filter fails the predicate. -/
theorem filtered_out {α : Type} {l : List α} {p : α → Bool} {x : α} (hx : x ∈ l)
    (hnx : x ∉ l.filter p) : p x = false := by
  rcases Bool.eq_false_or_eq_true (p x) with h | h
  · exact absurd (List.mem_filter.mpr ⟨hx, h⟩) hnx
  · exact h

/-- With distinct grant ids, a grant removed by the visit's grant sweep
references exactly the visited file. -/
theorem removed_grant_fileId {perms : List FilePermission} {id : Nat} {q : FilePermission}
    (hn : nodupPermIds perms) (hq : q ∈ perms)
    (hout : q ∉ perms.filter
      (fun q => (perms.filter (fun p => p.fileId == id)).all (fun p => !(q.id == p.id)))) :
    q.fileId = id := by
  have hpred := filtered_out hq hout
  have hex : ∃ p ∈ perms.filter (fun p => p.fileId == id), (!(q.id == p.id)) = false := by
    apply not_all_exists
    rw [hpred]
    exact Bool.false_ne_true
  obtain ⟨p, hp, hb⟩ := hex
  have hpq : q.id = p.id := by simpa using hb
  have hpmem := List.mem_filter.mp hp
  have hqp : q = p := nodup_key_inj hn hq hpmem.1 hpq
  rw [hqp]
  simpa using hpmem.2

/-- Grants removed by the cascade reference the visited node or one of its
(transitive) children: their file id dominates the root (file version),
respectively one of the listed children (loop version). -/
theorem del_touch_perm : ∀ fuel : Nat,
    (∀ st id, parentOrdered st.files → nodupPermIds st.filePermissions →
      ∀ q ∈ st.filePermissions, q ∉ (deleteFileAux fuel st id).st.filePermissions →
        id ≤ q.fileId) ∧
    (∀ cs st, parentOrdered st.files → nodupPermIds st.filePermissions →
      ∀ q ∈ st.filePermissions, q ∉ (deleteChildren fuel st cs).1.filePermissions →
        ∃ c ∈ cs, c.id ≤ q.fileId) := by
  intro fuel
  induction fuel with
  | zero =>
    constructor
    · intro st id _ _ q hq hout
      rw [del_zero] at hout
      exact absurd hq hout
    · intro cs st _ _ q hq hout
      rw [children_zero] at hout
      exact absurd hq hout
  | succ n ih =>
    have hfile : ∀ st id, parentOrdered st.files → nodupPermIds st.filePermissions →
        ∀ q ∈ st.filePermissions, q ∉ (deleteFileAux (n + 1) st id).st.filePermissions →
          id ≤ q.fileId := by
      intro st id hord hn q hq hout
      cases hgf : st.getFile id with
      | none =>
        rw [del_absent _ _ _ hgf] at hout
        exact absurd hq hout
      | some file =>
        cases hfold : file.isFolder with
        | true =>
          rw [del_frame_folder n st id file hgf hfold] at hout
          by_cases hmid : q ∈ (deleteChildren n st (st.getFilesByParent (some id))).1.filePermissions
          · have hfid := removed_grant_fileId
              (nodupPermIds_sublist ((del_sub n).2 _ st).2 hn) hmid hout
            omega
          · obtain ⟨c, hc, hle⟩ :=
              ih.2 (st.getFilesByParent (some id)) st hord hn q hq hmid
            obtain ⟨hcm, hcp⟩ := mem_children hc
            have := hord c hcm id hcp
            omega
        | false =>
          rw [del_frame_leaf n st id file hgf hfold] at hout
          have hfid := removed_grant_fileId hn hq hout
          omega
    refine ⟨hfile, ?_⟩
    intro cs
    induction cs with
    | nil =>
      intro st _ _ q hq hout
      rw [children_nil] at hout
      exact absurd hq hout
    | cons c cs ihcs =>
      intro st hord hn q hq hout
      rw [children_cons] at hout
      by_cases hmid : q ∈ (deleteFileAux (n + 1) st c.id).st.filePermissions
      · have hsubr := (del_sub (n + 1)).1 st c.id
        obtain ⟨c2, hc2, hle⟩ := ihcs (deleteFileAux (n + 1) st c.id).st
          (parentOrdered_subset hsubr.1.subset hord)
          (nodupPermIds_sublist hsubr.2 hn) q hmid hout
        exact ⟨c2, List.mem_cons_of_mem _ hc2, hle⟩
      · exact ⟨c, List.mem_cons_self _ _, hfile st c.id hord hn q hq hmid⟩

/-- A `deleteNode pid` event is emitted exactly by the full visit of `pid`:
its record existed when the call began and no record bearing `pid`
survives the call. -/
theorem del_visit : ∀ fuel : Nat,
    (∀ st id pid, DelEvent.deleteNode pid ∈ (deleteFileAux fuel st id).tr →
      (∃ g ∈ st.files, g.id = pid) ∧
        ∀ g ∈ (deleteFileAux fuel st id).st.files, g.id ≠ pid) ∧
    (∀ cs st pid, DelEvent.deleteNode pid ∈ (deleteChildren fuel st cs).2 →
      (∃ g ∈ st.files, g.id = pid) ∧
        ∀ g ∈ (deleteChildren fuel st cs).1.files, g.id ≠ pid) := by
  intro fuel
  induction fuel with
  | zero =>
    constructor
    · intro st id pid hmem
      rw [del_zero] at hmem
      cases hmem
    · intro cs st pid hmem
      rw [children_zero] at hmem
      cases hmem
  | succ n ih =>
    have hfile : ∀ st id pid, DelEvent.deleteNode pid ∈ (deleteFileAux (n + 1) st id).tr →
        (∃ g ∈ st.files, g.id = pid) ∧
          ∀ g ∈ (deleteFileAux (n + 1) st id).st.files, g.id ≠ pid := by
      intro st id pid hmem
      cases hgf : st.getFile id with
      | none =>
        rw [del_absent _ _ _ hgf] at hmem
        cases hmem
      | some file =>
        have hfilemem : file ∈ st.files := List.mem_of_find?_eq_some hgf
        have hfileid : file.id = id := by simpa using List.find?_some hgf
        cases hfold : file.isFolder with
        | true =>
          rw [del_frame_folder n st id file hgf hfold] at hmem ⊢
          simp only [List.mem_append, List.mem_singleton, List.mem_map] at hmem
          rcases hmem with (hmem | hmem) | hmem
          · obtain ⟨hex, hall⟩ := ih.2 (st.getFilesByParent (some id)) st pid hmem
            refine ⟨hex, ?_⟩
            intro g hg
            exact hall g (List.mem_filter.mp hg).1
          · obtain ⟨p, _, hp⟩ := hmem
            cases hp
          · have hpid : pid = id := by
              cases hmem
              rfl
            subst hpid
            refine ⟨⟨file, hfilemem, hfileid⟩, ?_⟩
            intro g hg
            have := (List.mem_filter.mp hg).2
            simpa using this
        | false =>
          rw [del_frame_leaf n st id file hgf hfold] at hmem ⊢
          simp only [List.mem_append, List.mem_singleton, List.mem_map] at hmem
          rcases hmem with (hmem | hmem) | hmem
          · rcases hpe : file.path == "" with _ | _ <;> rw [hpe] at hmem <;> simp at hmem
          · obtain ⟨p, _, hp⟩ := hmem
            cases hp
          · have hpid : pid = id := by
              cases hmem
              rfl
            subst hpid
            refine ⟨⟨file, hfilemem, hfileid⟩, ?_⟩
            intro g hg
            have := (List.mem_filter.mp hg).2
            simpa using this
    refine ⟨hfile, ?_⟩
    intro cs
    induction cs with
    | nil =>
      intro st pid hmem
      rw [children_nil] at hmem
      cases hmem
    | cons c cs ihcs =>
      intro st pid hmem
      rw [children_cons] at hmem ⊢
      rcases List.mem_append.mp hmem with hmem | hmem
      · obtain ⟨hex, hall⟩ := hfile st c.id pid hmem
        refine ⟨hex, ?_⟩
        intro g hg
        exact hall g (((del_sub (n + 1)).2 cs (deleteFileAux (n + 1) st c.id).st).1.subset hg)
      · obtain ⟨hex, hall⟩ := ihcs (deleteFileAux (n + 1) st c.id).st pid hmem
        obtain ⟨g, hg, hgid⟩ := hex
        exact ⟨⟨g, ((del_sub (n + 1)).1 st c.id).1.subset hg, hgid⟩, hall⟩

/-- A grant the cascade removes is removed by the sweep of the very node it
references: the trace contains that node's `deleteNode` event. -/
theorem del_clear : ∀ fuel : Nat,
    (∀ st id, nodupPermIds st.filePermissions →
      ∀ q ∈ st.filePermissions, q ∉ (deleteFileAux fuel st id).st.filePermissions →
        DelEvent.deleteNode q.fileId ∈ (deleteFileAux fuel st id).tr) ∧
    (∀ cs st, nodupPermIds st.filePermissions →
      ∀ q ∈ st.filePermissions, q ∉ (deleteChildren fuel st cs).1.filePermissions →
        DelEvent.deleteNode q.fileId ∈ (deleteChildren fuel st cs).2) := by
  intro fuel
  induction fuel with
  | zero =>
    constructor
    · intro st id _ q hq hout
      rw [del_zero] at hout
      exact absurd hq hout
    · intro cs st _ q hq hout
      rw [children_zero] at hout
      exact absurd hq hout
  | succ n ih =>
    have hfile : ∀ st id, nodupPermIds st.filePermissions →
        ∀ q ∈ st.filePermissions, q ∉ (deleteFileAux (n + 1) st id).st.filePermissions →
          DelEvent.deleteNode q.fileId ∈ (deleteFileAux (n + 1) st id).tr := by
      intro st id hn q hq hout
      cases hgf : st.getFile id with
      | none =>
        rw [del_absent _ _ _ hgf] at hout
        exact absurd hq hout
      | some file =>
        cases hfold : file.isFolder with
        | true =>
          rw [del_frame_folder n st id file hgf hfold] at hout ⊢
          by_cases hmid : q ∈ (deleteChildren n st (st.getFilesByParent (some id))).1.filePermissions
          · have hfid := removed_grant_fileId
              (nodupPermIds_sublist ((del_sub n).2 _ st).2 hn) hmid hout
            rw [hfid]
            simp
          · have := ih.2 (st.getFilesByParent (some id)) st hn q hq hmid
            simp [this]
        | false =>
          rw [del_frame_leaf n st id file hgf hfold] at hout ⊢
          have hfid := removed_grant_fileId hn hq hout
          rw [hfid]
          simp
    refine ⟨hfile, ?_⟩
    intro cs
    induction cs with
    | nil =>
      intro st _ q hq hout
      rw [children_nil] at hout
      exact absurd hq hout
    | cons c cs ihcs =>
      intro st hn q hq hout
      rw [children_cons] at hout ⊢
      by_cases hmid : q ∈ (deleteFileAux (n + 1) st c.id).st.filePermissions
      · have := ihcs (deleteFileAux (n + 1) st c.id).st
          (nodupPermIds_sublist ((del_sub (n + 1)).1 st c.id).2 hn) q hmid hout
        simp [this]
      · have := hfile st c.id hn q hq hmid
        simp [this]

/-- A record the cascade removes is removed by its own full visit: the
trace contains its `deleteNode` event, and for a leaf with stored content
also its `releaseContent` event. -/
theorem del_rem2 : ∀ fuel : Nat,
    (∀ st id, nodupFileIds st.files →
      ∀ rec0 ∈ st.files, rec0 ∉ (deleteFileAux fuel st id).st.files →
        DelEvent.deleteNode rec0.id ∈ (deleteFileAux fuel st id).tr ∧
          (rec0.isFolder = false → ¬ rec0.path = "" →
            DelEvent.releaseContent rec0.id ∈ (deleteFileAux fuel st id).tr)) ∧
    (∀ cs st, nodupFileIds st.files →
      ∀ rec0 ∈ st.files, rec0 ∉ (deleteChildren fuel st cs).1.files →
        DelEvent.deleteNode rec0.id ∈ (deleteChildren fuel st cs).2 ∧
          (rec0.isFolder = false → ¬ rec0.path = "" →
            DelEvent.releaseContent rec0.id ∈ (deleteChildren fuel st cs).2)) := by
  intro fuel
  induction fuel with
  | zero =>
    constructor
    · intro st id _ rec0 hrec hout
      rw [del_zero] at hout
      exact absurd hrec hout
    · intro cs st _ rec0 hrec hout
      rw [children_zero] at hout
      exact absurd hrec hout
  | succ n ih =>
    have hfile : ∀ st id, nodupFileIds st.files →
        ∀ rec0 ∈ st.files, rec0 ∉ (deleteFileAux (n + 1) st id).st.files →
          DelEvent.deleteNode rec0.id ∈ (deleteFileAux (n + 1) st id).tr ∧
            (rec0.isFolder = false → ¬ rec0.path = "" →
              DelEvent.releaseContent rec0.id ∈ (deleteFileAux (n + 1) st id).tr) := by
      intro st id hn rec0 hrec hout
      cases hgf : st.getFile id with
      | none =>
        rw [del_absent _ _ _ hgf] at hout
        exact absurd hrec hout
      | some file =>
        have hfilemem : file ∈ st.files := List.mem_of_find?_eq_some hgf
        have hfileid : file.id = id := by simpa using List.find?_some hgf
        cases hfold : file.isFolder with
        | true =>
          rw [del_frame_folder n st id file hgf hfold] at hout ⊢
          by_cases hmid : rec0 ∈ (deleteChildren n st (st.getFilesByParent (some id))).1.files
          · have hpred := filtered_out hmid hout
            have hrid : rec0.id = id := by simpa using hpred
            constructor
            · rw [hrid]
              simp
            · intro hleaf _
              exfalso
              have : rec0 = file := nodup_key_inj hn hrec hfilemem (hrid.trans hfileid.symm)
              rw [this, hfold] at hleaf
              exact Bool.true_eq_false.mp hleaf
          · obtain ⟨h1, h2⟩ := ih.2 (st.getFilesByParent (some id)) st hn rec0 hrec hmid
            exact ⟨by simp [h1], fun ha hb => by simp [h2 ha hb]⟩
        | false =>
          rw [del_frame_leaf n st id file hgf hfold] at hout ⊢
          have hpred := filtered_out hrec hout
          have hrid : rec0.id = id := by simpa using hpred
          have hrfile : rec0 = file := nodup_key_inj hn hrec hfilemem (hrid.trans hfileid.symm)
          constructor
          · rw [hrid]
            simp
          · intro _ hpath
            have hpe : (file.path == "") = false := by
              rw [← hrfile]
              simpa using hpath
            rw [hpe, hrid]
            simp
    refine ⟨hfile, ?_⟩
    intro cs
    induction cs with
    | nil =>
      intro st _ rec0 hrec hout
      rw [children_nil] at hout
      exact absurd hrec hout
    | cons c cs ihcs =>
      intro st hn rec0 hrec hout
      rw [children_cons] at hout ⊢
      by_cases hmid : rec0 ∈ (deleteFileAux (n + 1) st c.id).st.files
      · obtain ⟨h1, h2⟩ := ihcs (deleteFileAux (n + 1) st c.id).st
          (nodupFileIds_sublist ((del_sub (n + 1)).1 st c.id).1 hn) rec0 hmid hout
        exact ⟨by simp [h1], fun ha hb => by simp [h2 ha hb]⟩
      · obtain ⟨h1, h2⟩ := hfile st c.id hn rec0 hrec hmid
        exact ⟨by simp [h1], fun ha hb => by simp [h2 ha hb]⟩

/-- Grants scoped to a visited node are deleted strictly before the
node's own record: the trace splits at the node's `deleteNode` event with
every matching grant's `deleteGrant` event in the prefix. -/
theorem del_grant_split : ∀ fuel : Nat,
    (∀ st id, parentOrdered st.files → nodupPermIds st.filePermissions →
      ∀ pid, DelEvent.deleteNode pid ∈ (deleteFileAux fuel st id).tr →
        ∃ l1 l2, (deleteFileAux fuel st id).tr = l1 ++ DelEvent.deleteNode pid :: l2 ∧
          ∀ q ∈ st.filePermissions, q.fileId = pid → DelEvent.deleteGrant q.id ∈ l1) ∧
    (∀ cs st, parentOrdered st.files → nodupPermIds st.filePermissions →
      ∀ pid, DelEvent.deleteNode pid ∈ (deleteChildren fuel st cs).2 →
        ∃ l1 l2, (deleteChildren fuel st cs).2 = l1 ++ DelEvent.deleteNode pid :: l2 ∧
          ∀ q ∈ st.filePermissions, q.fileId = pid → DelEvent.deleteGrant q.id ∈ l1) := by
  intro fuel
  induction fuel with
  | zero =>
    constructor
    · intro st id _ _ pid hmem
      rw [del_zero] at hmem
      cases hmem
    · intro cs st _ _ pid hmem
      rw [children_zero] at hmem
      cases hmem
  | succ n ih =>
    have hfile : ∀ st id, parentOrdered st.files → nodupPermIds st.filePermissions →
        ∀ pid, DelEvent.deleteNode pid ∈ (deleteFileAux (n + 1) st id).tr →
          ∃ l1 l2, (deleteFileAux (n + 1) st id).tr = l1 ++ DelEvent.deleteNode pid :: l2 ∧
            ∀ q ∈ st.filePermissions, q.fileId = pid → DelEvent.deleteGrant q.id ∈ l1 := by
      intro st id hord hn pid hmem
      cases hgf : st.getFile id with
      | none =>
        rw [del_absent _ _ _ hgf] at hmem
        cases hmem
      | some file =>
        cases hfold : file.isFolder with
        | true =>
          rw [del_frame_folder n st id file hgf hfold] at hmem ⊢
          by_cases hpid : pid = id
          · subst hpid
            refine ⟨(deleteChildren n st (st.getFilesByParent (some pid))).2 ++
              ((deleteChildren n st (st.getFilesByParent (some pid))).1.filePermissions.filter
                (fun p => p.fileId == pid)).map (fun p => DelEvent.deleteGrant p.id), [],
              by simp, ?_⟩
            intro q hq hqid
            have hqmid : q ∈ (deleteChildren n st (st.getFilesByParent (some pid))).1.filePermissions := by
              by_contra hcon
              obtain ⟨c, hc, hle⟩ :=
                (del_touch_perm n).2 (st.getFilesByParent (some pid)) st hord hn q hq hcon
              obtain ⟨hcm, hcp⟩ := mem_children hc
              have := hord c hcm pid hcp
              omega
            have hqdel : q ∈ (deleteChildren n st (st.getFilesByParent (some pid))).1.filePermissions.filter
                (fun p => p.fileId == pid) :=
              List.mem_filter.mpr ⟨hqmid, by simp [hqid]⟩
            exact List.mem_append_right _ (List.mem_map_of_mem _ hqdel)
          · have hmem2 : DelEvent.deleteNode pid ∈
                (deleteChildren n st (st.getFilesByParent (some id))).2 := by
              simp only [List.mem_append, List.mem_singleton, List.mem_map] at hmem
              rcases hmem with (h | h) | h
              · exact h
              · obtain ⟨p, _, hp⟩ := h
                cases hp
              · cases h
                exact absurd rfl hpid
            obtain ⟨m1, m2, hsplit, hgr⟩ :=
              ih.2 (st.getFilesByParent (some id)) st hord hn pid hmem2
            exact ⟨m1, m2 ++ ((deleteChildren n st (st.getFilesByParent (some id))).1.filePermissions.filter
              (fun p => p.fileId == id)).map (fun p => DelEvent.deleteGrant p.id) ++
              [DelEvent.deleteNode id], by rw [hsplit]; simp, hgr⟩
        | false =>
          rw [del_frame_leaf n st id file hgf hfold] at hmem ⊢
          have hpid : pid = id := by
            simp only [List.mem_append, List.mem_singleton, List.mem_map] at hmem
            rcases hmem with (h | h) | h
            · rcases hpe : file.path == "" with _ | _ <;> rw [hpe] at h <;> simp at h
            · obtain ⟨p, _, hp⟩ := h
              cases hp
            · cases h
              rfl
          subst hpid
          refine ⟨(if file.path == "" then [] else [DelEvent.releaseContent pid]) ++
            (st.filePermissions.filter (fun p => p.fileId == pid)).map
              (fun p => DelEvent.deleteGrant p.id), [], by simp, ?_⟩
          intro q hq hqid
          have hqdel : q ∈ st.filePermissions.filter (fun p => p.fileId == pid) :=
            List.mem_filter.mpr ⟨hq, by simp [hqid]⟩
          exact List.mem_append_right _ (List.mem_map_of_mem _ hqdel)
    refine ⟨hfile, ?_⟩
    intro cs
    induction cs with
    | nil =>
      intro st _ _ pid hmem
      rw [children_nil] at hmem
      cases hmem
    | cons c cs ihcs =>
      intro st hord hn pid hmem
      rw [children_cons] at hmem ⊢
      rcases List.mem_append.mp hmem with hmem2 | hmem2
      · obtain ⟨m1, m2, hsplit, hgr⟩ := hfile st c.id hord hn pid hmem2
        exact ⟨m1, m2 ++ (deleteChildren (n + 1) (deleteFileAux (n + 1) st c.id).st cs).2,
          by rw [hsplit]; simp, hgr⟩
      · have hsubr := (del_sub (n + 1)).1 st c.id
        obtain ⟨m1, m2, hsplit, hgr⟩ := ihcs (deleteFileAux (n + 1) st c.id).st
          (parentOrdered_subset hsubr.1.subset hord)
          (nodupPermIds_sublist hsubr.2 hn) pid hmem2
        refine ⟨(deleteFileAux (n + 1) st c.id).tr ++ m1, m2, by rw [hsplit]; simp, ?_⟩
        intro q hq hqid
        by_cases hqmid : q ∈ (deleteFileAux (n + 1) st c.id).st.filePermissions
        · exact List.mem_append_right _ (hgr q hqmid hqid)
        · exfalso
          have hclear := (del_clear (n + 1)).1 st c.id hn q hq hqmid
          rw [hqid] at hclear
          have hvis1 := ((del_visit (n + 1)).1 st c.id pid hclear).2
          have hvis2 := ((del_visit (n + 1)).2 cs (deleteFileAux (n + 1) st c.id).st pid hmem2).1
          obtain ⟨g, hg, hgid⟩ := hvis2
          exact hvis1 g hg hgid

/-- Every listed child that is still stored when the loop starts gets its
`deleteNode` event in the loop's trace, and a leaf child with stored
content gets its `releaseContent` event as well. -/
theorem children_events (fuel : Nat) : ∀ cs st, parentOrdered st.files →
    nodupFileIds st.files → (∀ c ∈ cs, suffFuel fuel st c.id) →
    ∀ c ∈ cs, c ∈ st.files →
      DelEvent.deleteNode c.id ∈ (deleteChildren fuel st cs).2 ∧
        (c.isFolder = false → ¬ c.path = "" →
          DelEvent.releaseContent c.id ∈ (deleteChildren fuel st cs).2) := by
  intro cs
  induction cs with
  | nil =>
    intro st _ _ _ c hc
    cases hc
  | cons c0 cs ihcs =>
    intro st hord hn hcs c hc hcst
    rw [children_cons]
    rcases List.mem_cons.mp hc with rfl | hc2
    · have hsuff := hcs c (List.mem_cons_self _ _)
      cases fuel with
      | zero =>
        exfalso
        have := hsuff
        unfold suffFuel at this
        omega
      | succ m =>
        have hfind : st.getFile c.id = some c := by
          cases hgf : st.getFile c.id with
          | none =>
            exfalso
            have := List.find?_eq_none.mp hgf c hcst
            simp at this
          | some f2 =>
            have hf2mem : f2 ∈ st.files := List.mem_of_find?_eq_some hgf
            have hf2id : f2.id = c.id := by simpa using List.find?_some hgf
            rw [nodup_key_inj hn hf2mem hcst hf2id]
        cases hfold : c.isFolder with
        | true =>
          rw [del_frame_folder m st c.id c hfind hfold]
          constructor
          · simp
          · intro ha _
            cases ha
        | false =>
          rw [del_frame_leaf m st c.id c hfind hfold]
          constructor
          · simp
          · intro _ hpath
            have hpe : (c.path == "") = false := by simpa using hpath
            rw [hpe]
            simp
    · by_cases hmid : c ∈ (deleteFileAux fuel st c0.id).st.files
      · have hsubr := (del_sub fuel).1 st c0.id
        have := ihcs (deleteFileAux fuel st c0.id).st
          (parentOrdered_subset hsubr.1.subset hord)
          (nodupFileIds_sublist hsubr.1 hn)
          (fun c2 hc2m => suffFuel_mono hsubr.1 (hcs c2 (List.mem_cons_of_mem _ hc2m)))
          c hc2 hmid
        exact ⟨by simp [this.1], fun ha hb => by simp [this.2 ha hb]⟩
      · have := (del_rem2 fuel).1 st c0.id hn c hcst hmid
        exact ⟨by simp [this.1], fun ha hb => by simp [this.2 ha hb]⟩

/-- Post-order: the trace splits at any visited node's `deleteNode` event
with the `deleteNode` event of every stored child of that node — and the
`releaseContent` event of every such leaf child with stored content —
strictly inside the prefix. -/
theorem del_post_split : ∀ fuel : Nat,
    (∀ st id, parentOrdered st.files → folderParents st.files → nodupFileIds st.files →
      suffFuel fuel st id →
      ∀ pid, DelEvent.deleteNode pid ∈ (deleteFileAux fuel st id).tr →
        ∃ l1 l2, (deleteFileAux fuel st id).tr = l1 ++ DelEvent.deleteNode pid :: l2 ∧
          ∀ c ∈ st.files, c.parentId = some pid →
            DelEvent.deleteNode c.id ∈ l1 ∧
              (c.isFolder = false → ¬ c.path = "" → DelEvent.releaseContent c.id ∈ l1)) ∧
    (∀ cs st, parentOrdered st.files → folderParents st.files → nodupFileIds st.files →
      (∀ c ∈ cs, suffFuel fuel st c.id) →
      ∀ pid, DelEvent.deleteNode pid ∈ (deleteChildren fuel st cs).2 →
        ∃ l1 l2, (deleteChildren fuel st cs).2 = l1 ++ DelEvent.deleteNode pid :: l2 ∧
          ∀ c ∈ st.files, c.parentId = some pid →
            DelEvent.deleteNode c.id ∈ l1 ∧
              (c.isFolder = false → ¬ c.path = "" → DelEvent.releaseContent c.id ∈ l1)) := by
  intro fuel
  induction fuel with
  | zero =>
    constructor
    · intro st id _ _ _ _ pid hmem
      rw [del_zero] at hmem
      cases hmem
    · intro cs st _ _ _ _ pid hmem
      rw [children_zero] at hmem
      cases hmem
  | succ n ih =>
    have hfile : ∀ st id, parentOrdered st.files → folderParents st.files →
        nodupFileIds st.files → suffFuel (n + 1) st id →
        ∀ pid, DelEvent.deleteNode pid ∈ (deleteFileAux (n + 1) st id).tr →
          ∃ l1 l2, (deleteFileAux (n + 1) st id).tr = l1 ++ DelEvent.deleteNode pid :: l2 ∧
            ∀ c ∈ st.files, c.parentId = some pid →
              DelEvent.deleteNode c.id ∈ l1 ∧
                (c.isFolder = false → ¬ c.path = "" →
                  DelEvent.releaseContent c.id ∈ l1) := by
      intro st id hord hfp hn hsuff pid hmem
      cases hgf : st.getFile id with
      | none =>
        rw [del_absent _ _ _ hgf] at hmem
        cases hmem
      | some file =>
        have hfilemem : file ∈ st.files := List.mem_of_find?_eq_some hgf
        have hfileid : file.id = id := by simpa using List.find?_some hgf
        have hcs : ∀ c ∈ st.getFilesByParent (some id), suffFuel n st c.id := by
          intro c hc
          obtain ⟨hcm, hcp⟩ := mem_children hc
          exact suffFuel_child (List.Sublist.refl _) hcm (hord c hcm id hcp) hsuff
        cases hfold : file.isFolder with
        | true =>
          rw [del_frame_folder n st id file hgf hfold] at hmem ⊢
          by_cases hpid : pid = id
          · subst hpid
            refine ⟨(deleteChildren n st (st.getFilesByParent (some pid))).2 ++
              ((deleteChildren n st (st.getFilesByParent (some pid))).1.filePermissions.filter
                (fun p => p.fileId == pid)).map (fun p => DelEvent.deleteGrant p.id), [],
              by simp, ?_⟩
            intro c hcmem hcp
            have hcchild : c ∈ st.getFilesByParent (some pid) :=
              List.mem_filter.mpr ⟨hcmem, by simp [hcp]⟩
            have := children_events n (st.getFilesByParent (some pid)) st hord hn hcs
              c hcchild hcmem
            exact ⟨List.mem_append_left _ this.1,
              fun ha hb => List.mem_append_left _ (this.2 ha hb)⟩
          · have hmem2 : DelEvent.deleteNode pid ∈
                (deleteChildren n st (st.getFilesByParent (some id))).2 := by
              simp only [List.mem_append, List.mem_singleton, List.mem_map] at hmem
              rcases hmem with (h | h) | h
              · exact h
              · obtain ⟨p, _, hp⟩ := h
                cases hp
              · cases h
                exact absurd rfl hpid
            obtain ⟨m1, m2, hsplit, hev⟩ :=
              ih.2 (st.getFilesByParent (some id)) st hord hfp hn hcs pid hmem2
            exact ⟨m1, m2 ++ ((deleteChildren n st (st.getFilesByParent (some id))).1.filePermissions.filter
              (fun p => p.fileId == id)).map (fun p => DelEvent.deleteGrant p.id) ++
              [DelEvent.deleteNode id], by rw [hsplit]; simp, hev⟩
        | false =>
          rw [del_frame_leaf n st id file hgf hfold] at hmem ⊢
          have hpid : pid = id := by
            simp only [List.mem_append, List.mem_singleton, List.mem_map] at hmem
            rcases hmem with (h | h) | h
            · rcases hpe : file.path == "" with _ | _ <;> rw [hpe] at h <;> simp at h
            · obtain ⟨p, _, hp⟩ := h
              cases hp
            · cases h
              rfl
          subst hpid
          refine ⟨(if file.path == "" then [] else [DelEvent.releaseContent pid]) ++
            (st.filePermissions.filter (fun p => p.fileId == pid)).map
              (fun p => DelEvent.deleteGrant p.id), [], by simp, ?_⟩
          intro c hcmem hcp
          exfalso
          have := hfp c hcmem pid hcp file hfilemem hfileid
          rw [hfold] at this
          exact Bool.false_ne_true this
    refine ⟨hfile, ?_⟩
    intro cs
    induction cs with
    | nil =>
      intro st _ _ _ _ pid hmem
      rw [children_nil] at hmem
      cases hmem
    | cons c0 cs ihcs =>
      intro st hord hfp hn hcs pid hmem
      rw [children_cons] at hmem ⊢
      rcases List.mem_append.mp hmem with hmem2 | hmem2
      · obtain ⟨m1, m2, hsplit, hev⟩ :=
          hfile st c0.id hord hfp hn (hcs c0 (List.mem_cons_self _ _)) pid hmem2
        exact ⟨m1, m2 ++ (deleteChildren (n + 1) (deleteFileAux (n + 1) st c0.id).st cs).2,
          by rw [hsplit]; simp, hev⟩
      · have hsubr := (del_sub (n + 1)).1 st c0.id
        obtain ⟨m1, m2, hsplit, hev⟩ := ihcs (deleteFileAux (n + 1) st c0.id).st
          (parentOrdered_subset hsubr.1.subset hord)
          (folderParents_subset hsubr.1.subset hfp)
          (nodupFileIds_sublist hsubr.1 hn)
          (fun c2 hc2 => suffFuel_mono hsubr.1 (hcs c2 (List.mem_cons_of_mem _ hc2)))
          pid hmem2
        refine ⟨(deleteFileAux (n + 1) st c0.id).tr ++ m1, m2, by rw [hsplit]; simp, ?_⟩
        intro c hcmem hcp
        by_cases hcmid : c ∈ (deleteFileAux (n + 1) st c0.id).st.files
        · have := hev c hcmid hcp
          exact ⟨List.mem_append_right _ this.1,
            fun ha hb => List.mem_append_right _ (this.2 ha hb)⟩
        · have := (del_rem2 (n + 1)).1 st c0.id hn c hcmem hcmid
          exact ⟨List.mem_append_left _ this.1,
            fun ha hb => List.mem_append_left _ (this.2 ha hb)⟩

/-- Every non-root member of a subtree chain has a stored record. -/
theorem InSubtree.record {files : List File} {root x : Nat} (h : InSubtree files root x) :
    x = root ∨ ∃ f ∈ files, f.id = x := by
  cases h with
  | refl => exact Or.inl rfl
  | step f p hmem _ _ => exact Or.inr ⟨f, hmem, rfl⟩

/-- The fuel `deleteFile` supplies is always sufficient. -/
theorem suffFuel_top (st : MemStorage) (id : Nat) : suffFuel (st.files.length + 1) st id :=
  Nat.lt_succ_of_le (List.countP_le_length _)

/-- Subtree elimination: once the cascade on a present root finishes, no
record of any subtree member survives. -/
theorem del_subtree_gone (fuel : Nat) (st : MemStorage) (id : Nat)
    (hord : parentOrdered st.files) (hfp : folderParents st.files)
    (hn : nodupFileIds st.files) (hsuff : suffFuel fuel st id) (hfuel : 1 ≤ fuel)
    (hroot : ∃ g ∈ st.files, g.id = id) :
    ∀ x, InSubtree st.files id x → ∀ f ∈ (deleteFileAux fuel st id).st.files, f.id ≠ x := by
  intro x hx
  induction hx with
  | refl => exact del_node_gone fuel st id hfuel
  | step g p hgmem hgp _ ihp =>
    intro f hf hfid
    have hfst : f ∈ st.files := ((del_sub fuel).1 st id).1.subset hf
    have hfg : f = g := nodup_key_inj hn hfst hgmem hfid
    have hpst : ∃ gp ∈ st.files, gp.id = p := by
      rename_i hsubp
      rcases hsubp.record with rfl | hrec
      · exact hroot
      · exact hrec
    obtain ⟨gp, hgpo, hgpid⟩ :=
      (del_dangle fuel).1 st id hord hfp hsuff f hf p (by rw [hfg]; exact hgp) hpst
    exact ihp gp hgpo hgpid

/-- Deleted-id predicate: a file id that had a record when the operation
began and has none afterwards. -/
def deletedId (st : MemStorage) (r : DelRes) (x : Nat) : Prop :=
  (∃ g ∈ st.files, g.id = x) ∧ ∀ g ∈ r.st.files, g.id ≠ x

/-- Shared well-formed fixture: one user owning a Root folder containing a
subfolder that contains one uploaded leaf, with one grant on the leaf. -/
def wfFixture : MemStorage :=
  { users := [⟨1, "alice", "pw", "Alice", "editor"⟩, ⟨2, "bob", "pw", "Bob", "viewer"⟩],
    files := [⟨1, "Root", "/", "folder", 0, 1, none, true, 0, 0⟩,
              ⟨2, "docs", "/", "folder", 0, 1, some 1, true, 0, 0⟩,
              ⟨3, "a.txt", "a.txt", "text", 4, 1, some 2, false, 0, 0⟩],
    filePermissions := [⟨1, 3, 2, true, false, false, false⟩],
    activityLogs := [], userIdCounter := 3, fileIdCounter := 4,
    filePermissionIdCounter := 2, activityLogIdCounter := 1 }

/-- Discharge of the well-formedness hypotheses on the shared fixture. -/
theorem wfFixture_wf : storeWF wfFixture := by
  refine ⟨parentOrdered_of_all _ (by decide), folderParents_of_all _ (by decide), ?_, ?_⟩
  · show (wfFixture.files.map File.id).Nodup
    decide
  · show (wfFixture.filePermissions.map FilePermission.id).Nodup
    decide

/-- C3: on a well-formed store, `deleteFile` returns false exactly when the
root id has no record; when the root is present the cascade removes the
record of every subtree member ("the whole subtree is gone"); and the
visit order is post-order — the trace splits at every visited node's
`deleteNode` event with each stored child's own `deleteNode` event, and
the `releaseContent` event of each leaf child holding content, strictly
before it (in particular every child is fully deleted, and every leaf's
content released, before its parent's record disappears). -/
theorem C3_deleteFile_postorder (st : MemStorage) (id : Nat) (hwf : storeWF st) :
    ((st.deleteFile id).ok = true ↔ ∃ f ∈ st.files, f.id = id) ∧
    ((∃ f ∈ st.files, f.id = id) →
      ∀ x, InSubtree st.files id x → ∀ f ∈ (st.deleteFile id).st.files, f.id ≠ x) ∧
    (∀ pid, DelEvent.deleteNode pid ∈ (st.deleteFile id).tr →
      ∃ l1 l2, (st.deleteFile id).tr = l1 ++ DelEvent.deleteNode pid :: l2 ∧
        ∀ c ∈ st.files, c.parentId = some pid →
          DelEvent.deleteNode c.id ∈ l1 ∧
            (c.isFolder = false → ¬ c.path = "" → DelEvent.releaseContent c.id ∈ l1)) := by
  obtain ⟨hord, hfp, hn, hnp⟩ := hwf
  refine ⟨?_, ?_, ?_⟩
  · constructor
    · intro hok
      by_contra hcon
      have hnone : st.getFile id = none := by
        rw [MemStorage.getFile, List.find?_eq_none]
        intro f hf
        simp only [beq_iff_eq]
        intro hfid
        exact hcon ⟨f, hf, hfid⟩
      rw [MemStorage.deleteFile, del_absent _ _ _ hnone] at hok
      cases hok
    · intro hex
      obtain ⟨f, hf, hfid⟩ := hex
      have hsome : ∃ file, st.getFile id = some file := by
        cases hgf : st.getFile id with
        | none =>
          exfalso
          have := List.find?_eq_none.mp hgf f hf
          simp [hfid] at this
        | some file => exact ⟨file, rfl⟩
      obtain ⟨file, hgf⟩ := hsome
      rw [MemStorage.deleteFile]
      exact del_ok st.files.length st id file hord hgf
  · intro hroot
    exact del_subtree_gone (st.files.length + 1) st id hord hfp hn
      (suffFuel_top st id) (Nat.succ_le_succ (Nat.zero_le _)) hroot
  · intro pid hmem
    exact (del_post_split (st.files.length + 1)).1 st id hord hfp hn
      (suffFuel_top st id) pid hmem

/-- Witness for C3 on the shared fixture: deleting the subfolder (a
container with one leaf child) returns true, and deleting a missing id
returns false. -/
theorem C3_deleteFile_postorder_witness :
    (wfFixture.deleteFile 2).ok = true ∧ (wfFixture.deleteFile 99).ok = false := by
  constructor
  · exact (C3_deleteFile_postorder wfFixture 2 wfFixture_wf).1.mpr (by decide)
  · have h := (C3_deleteFile_postorder wfFixture 99 wfFixture_wf).1
    rcases hok : (wfFixture.deleteFile 99).ok with _ | _
    · rfl
    · exfalso
      have := h.mp hok
      revert this
      decide

/-- C4: on a well-formed store, after `deleteFile` no surviving FileNode
has a parent whose id was deleted by the cascade (in particular none has
the deleted root as parent), no surviving PermissionGrant references a
deleted id, and the grants scoped to each visited node are deleted —
their `deleteGrant` events appear — strictly before that node's own
`deleteNode` event in the trace. -/
theorem C4_deleteFile_no_orphans (st : MemStorage) (id : Nat) (hwf : storeWF st) :
    (∀ f ∈ (st.deleteFile id).st.files, ∀ p, f.parentId = some p →
      ¬ deletedId st (st.deleteFile id) p) ∧
    ((∃ g ∈ st.files, g.id = id) →
      ∀ f ∈ (st.deleteFile id).st.files, f.parentId ≠ some id) ∧
    (∀ q ∈ (st.deleteFile id).st.filePermissions,
      ¬ deletedId st (st.deleteFile id) q.fileId) ∧
    (∀ pid, DelEvent.deleteNode pid ∈ (st.deleteFile id).tr →
      ∃ l1 l2, (st.deleteFile id).tr = l1 ++ DelEvent.deleteNode pid :: l2 ∧
        ∀ q ∈ st.filePermissions, q.fileId = pid → DelEvent.deleteGrant q.id ∈ l1) := by
  obtain ⟨hord, hfp, hn, hnp⟩ := hwf
  have hA : ∀ f ∈ (st.deleteFile id).st.files, ∀ p, f.parentId = some p →
      ¬ deletedId st (st.deleteFile id) p := by
    intro f hf p hp ⟨hex, hall⟩
    obtain ⟨g, hg, hgid⟩ :=
      (del_dangle (st.files.length + 1)).1 st id hord hfp (suffFuel_top st id) f hf p hp hex
    exact hall g hg hgid
  refine ⟨hA, ?_, ?_, ?_⟩
  · intro hroot f hf hp
    refine hA f hf id hp ⟨hroot, ?_⟩
    exact del_node_gone (st.files.length + 1) st id (Nat.succ_le_succ (Nat.zero_le _))
  · intro q hq ⟨hex, hall⟩
    obtain ⟨g, hg, hgid⟩ :=
      (del_perm_file (st.files.length + 1)).1 st id hord (suffFuel_top st id) q hq hex
    exact hall g hg hgid
  · intro pid hmem
    exact (del_grant_split (st.files.length + 1)).1 st id hord hnp pid hmem

/-- Witness for C4 on the shared fixture: after deleting the Root folder no
file and no grant survive at all, so in particular no orphan exists. -/
theorem C4_deleteFile_no_orphans_witness :
    (∀ f ∈ (wfFixture.deleteFile 1).st.files, ∀ p, f.parentId = some p →
      ¬ deletedId wfFixture (wfFixture.deleteFile 1) p) ∧
    (wfFixture.deleteFile 1).st.filePermissions = [] := by
  constructor
  · exact (C4_deleteFile_no_orphans wfFixture 1 wfFixture_wf).1
  · decide

/-- C2: the file-listing operation ignores the actor entirely.  Because
the permission lookup inside the filter callback of `GET /api/files` is
not awaited, the pending Promise object is truthy and the per-file filter
always passes: every file whose `parentId` equals the query is returned
for every authenticated actor, so two runs with different actors — of any
role, ownership or grant state — yield identical listings. -/
theorem C2_listFiles_actor_independent (st : MemStorage) (a b : User) (pid : Option Nat) :
    listFilesHandler st a pid = st.getFilesByParent pid ∧
    listFilesHandler st a pid = listFilesHandler st b pid := by
  have hall : ∀ u : User, listFilesHandler st u pid = st.getFilesByParent pid := by
    intro u
    unfold listFilesHandler
    apply List.filter_eq_self.mpr
    intro f _
    unfold listFilesFilter pendingPromiseTruthy
    split <;> rfl
  exact ⟨hall a, (hall a).trans (hall b).symm⟩

/-- C7: ownership dominates the access decisions: for a stored file and an
actor whose id equals the file's `ownerId`, the metadata, download, delete
and share decisions are all Allow — and the shared gate grants every
capability flag, read, write, delete and share alike — regardless of
which PermissionGrant rows exist.  Ownership is tested before the grant
lookup in every handler, which is why no grant list can change this. -/
theorem C7_owner_always_allowed (files : List File) (perms : List FilePermission)
    (actor : User) (fileId : Nat) (file : File)
    (hf : files.find? (fun f => f.id == fileId) = some file)
    (hown : file.ownerId = actor.id) :
    fileDetailDecision files perms actor fileId = .allowed ∧
    (file.isFolder = false → downloadDecision files perms actor fileId = .allowed) ∧
    deleteFileDecision files perms actor fileId = .allowed ∧
    shareDecision files perms actor fileId = .allowed ∧
    ∀ flag : FilePermission → Bool, grantGateAllows perms actor file flag = true := by
  have hcond : (file.ownerId == actor.id || actor.role == adminRole) = true := by
    simp [hown]
  have hgate : ∀ flag : FilePermission → Bool, grantGateAllows perms actor file flag = true := by
    intro flag
    simp [grantGateAllows, hcond]
  refine ⟨?_, ?_, ?_, ?_, hgate⟩
  · simp [fileDetailDecision, hf, hcond]
  · intro hnf
    simp [downloadDecision, hf, hnf, hgate]
  · simp [deleteFileDecision, hf, hgate]
  · simp [shareDecision, hf, hgate]

/-- Witness fixture for C7: an owner with role viewer, a leaf file, and a
grant row that denies everything (the decision must ignore it). -/
def c7File : File := ⟨10, "doc", "d.txt", "text", 3, 1, none, false, 0, 0⟩

/-- Witness actor for C7. -/
def c7Owner : User := ⟨1, "alice", "pw", "Alice", "viewer"⟩

/-- Witness for C7: the owner's delete and download decisions are Allow
even though the only grant row carries all-false flags. -/
theorem C7_owner_always_allowed_witness :
    deleteFileDecision [c7File] [⟨1, 10, 1, false, false, false, false⟩] c7Owner 10
      = .allowed ∧
    downloadDecision [c7File] [⟨1, 10, 1, false, false, false, false⟩] c7Owner 10
      = .allowed := by
  have h := C7_owner_always_allowed [c7File] [⟨1, 10, 1, false, false, false, false⟩]
    c7Owner 10 c7File rfl rfl
  exact ⟨h.2.2.1, h.2.1 rfl⟩

/-- Fixture file for C1: a leaf owned by user 1. -/
def c1File : File := ⟨10, "doc", "doc.txt", "text", 5, 1, none, false, 0, 0⟩

/-- Fixture grant for C1: a grant on file 10 for user 2 with every
capability flag false. -/
def c1Grant : FilePermission := ⟨7, 10, 2, false, false, false, false⟩

/-- Fixture actor for C1: a non-owner, non-admin user. -/
def c1Actor : User := ⟨2, "bob", "pw", "Bob", "viewer"⟩

/-- Counterexample to C1 as stated: for a non-owner, non-admin actor and
the read capability, the metadata-read handler (`GET /api/files/:id`)
resolves to Allow although the grant's flag for every capability —
`canRead` included — is false: the handler tests only that a grant row
exists, never its flags. -/
theorem C1_counterexample :
    fileDetailDecision [c1File] [c1Grant] c1Actor 10 = .allowed ∧
    c1Grant.fileId = 10 ∧ c1Grant.userId = c1Actor.id ∧
    c1Grant.canRead = false ∧ c1Grant.canWrite = false ∧
    c1Grant.canDelete = false ∧ c1Grant.canShare = false ∧
    ¬ c1File.ownerId = c1Actor.id ∧ ¬ c1Actor.role = adminRole := by
  decide

/-- C1 amended: for a stored file and a non-owner, non-admin actor, the
download (read), delete and share decisions are Allow exactly when a grant
for `(fileId, actor)` exists whose flag for that capability is true — and
with zero matching grants every decision, the metadata read included, is
Deny.  The metadata-read decision however is Allow whenever any matching
grant row exists, regardless of its flags. -/
theorem C1_grant_flag_gating (files : List File) (perms : List FilePermission)
    (actor : User) (fileId : Nat) (file : File)
    (hf : files.find? (fun f => f.id == fileId) = some file)
    (hown : ¬ file.ownerId = actor.id) (hadm : ¬ actor.role = adminRole) :
    (perms.find? (fun p => p.fileId == fileId && p.userId == actor.id) = none →
      fileDetailDecision files perms actor fileId = .denied ∧
      (file.isFolder = false → downloadDecision files perms actor fileId = .denied) ∧
      deleteFileDecision files perms actor fileId = .denied ∧
      shareDecision files perms actor fileId = .denied) ∧
    (fileDetailDecision files perms actor fileId = .allowed ↔
      ∃ g, perms.find? (fun p => p.fileId == fileId && p.userId == actor.id) = some g) ∧
    (file.isFolder = false →
      (downloadDecision files perms actor fileId = .allowed ↔
        ∃ g, perms.find? (fun p => p.fileId == fileId && p.userId == actor.id) = some g ∧
          g.canRead = true)) ∧
    (deleteFileDecision files perms actor fileId = .allowed ↔
      ∃ g, perms.find? (fun p => p.fileId == fileId && p.userId == actor.id) = some g ∧
        g.canDelete = true) ∧
    (shareDecision files perms actor fileId = .allowed ↔
      ∃ g, perms.find? (fun p => p.fileId == fileId && p.userId == actor.id) = some g ∧
        g.canShare = true) := by
  have hfid : file.id = fileId := by simpa using List.find?_some hf
  have hcond : (file.ownerId == actor.id || actor.role == adminRole) = false := by
    simp [hown, hadm]
  cases hg : perms.find? (fun p => p.fileId == fileId && p.userId == actor.id) with
  | none =>
    refine ⟨?_, ?_, ?_, ?_, ?_⟩
    · intro _
      refine ⟨?_, ?_, ?_, ?_⟩
      · simp [fileDetailDecision, hf, hcond, hg]
      · intro hnf
        simp [downloadDecision, grantGateAllows, hf, hfid, hcond, hg, hnf]
      · simp [deleteFileDecision, grantGateAllows, hf, hfid, hcond, hg]
      · simp [shareDecision, grantGateAllows, hf, hfid, hcond, hg]
    · simp [fileDetailDecision, hf, hcond, hg]
    · intro hnf
      simp [downloadDecision, grantGateAllows, hf, hfid, hcond, hg, hnf]
    · simp [deleteFileDecision, grantGateAllows, hf, hfid, hcond, hg]
    · simp [shareDecision, grantGateAllows, hf, hfid, hcond, hg]
  | some g =>
    refine ⟨?_, ?_, ?_, ?_, ?_⟩
    · intro hcontra
      cases hcontra
    · simp [fileDetailDecision, hf, hcond, hg]
    · intro hnf
      cases hr : g.canRead with
      | true => simp [downloadDecision, grantGateAllows, hf, hfid, hcond, hg, hnf, hr]
      | false => simp [downloadDecision, grantGateAllows, hf, hfid, hcond, hg, hnf, hr]
    · cases hr : g.canDelete with
      | true => simp [deleteFileDecision, grantGateAllows, hf, hfid, hcond, hg, hr]
      | false => simp [deleteFileDecision, grantGateAllows, hf, hfid, hcond, hg, hr]
    · cases hr : g.canShare with
      | true => simp [shareDecision, grantGateAllows, hf, hfid, hcond, hg, hr]
      | false => simp [shareDecision, grantGateAllows, hf, hfid, hcond, hg, hr]

/-- Witness for C1 (amended) at a concrete input: with zero grants the
non-owner, non-admin actor is denied everywhere, and with the all-false
grant the delete decision stays denied. -/
theorem C1_grant_flag_gating_witness :
    fileDetailDecision [c1File] [] c1Actor 10 = .denied ∧
    downloadDecision [c1File] [] c1Actor 10 = .denied ∧
    deleteFileDecision [c1File] [] c1Actor 10 = .denied ∧
    shareDecision [c1File] [] c1Actor 10 = .denied := by
  have h0 := C1_grant_flag_gating [c1File] [] c1Actor 10 c1File rfl
    (by decide) (by decide)
  exact ⟨(h0.1 rfl).1, (h0.1 rfl).2.1 rfl, (h0.1 rfl).2.2.1, (h0.1 rfl).2.2.2⟩

/-- When the new key is fresh, `Map.set` appends. -/
theorem mapSet_fresh {α : Type} {key : α → Nat} {l : List α} {v : α}
    (h : ∀ x ∈ l, ¬ key x = key v) : mapSet key l v = l ++ [v] := by
  unfold mapSet
  rw [if_neg]
  intro hc
  obtain ⟨x, hx, hk⟩ := List.any_eq_true.mp hc
  exact h x hx (by simpa using hk)

/-- Counter invariant: every stored file id is below the id counter. -/
def fileIdsFresh (st : MemStorage) : Prop := ∀ f ∈ st.files, f.id < st.fileIdCounter

/-- Fixture state for C8: one user, no files. -/
def c8St : MemStorage :=
  ⟨[⟨1, "alice", "pw", "Alice", "editor"⟩], [], [], [], 2, 5, 1, 1⟩

/-- Counterexample to C8 as stated: with a `parentId` of 999 that resolves
to no existing node (the store is empty), `createFile` raises no NotFound
— it stores the record and hands it back. -/
theorem C8_counterexample :
    (∀ g ∈ c8St.files, ¬ g.id = 999) ∧
    (c8St.createFile ⟨"a.txt", "/a.txt", "text", 1, 1, some 999, false⟩ 7).1 ∈
      (c8St.createFile ⟨"a.txt", "/a.txt", "text", 1, 1, some 999, false⟩ 7).2.files ∧
    (c8St.createFile ⟨"a.txt", "/a.txt", "text", 1, 1, some 999, false⟩ 7).1.parentId
      = some 999 := by
  decide

/-- C8 amended: the folder-creation route rejects an empty name and leaves
the state untouched, and this is the only validation anywhere: for every
`parentId` value — missing, dangling or resolving to a non-container —
both the folder route and the upload route create the node with
`createdAt = updatedAt = now` and report success. -/
theorem C8_create_no_validation (st : MemStorage) (actor : User) (name : String)
    (parentId : Option Nat) (now : Nat) (hfresh : fileIdsFresh st) :
    (name = "" → createFolderRoute st actor name parentId now = (.badRequest, none, st)) ∧
    (¬ name = "" →
      (createFolderRoute st actor name parentId now).1 = .created ∧
      ∃ fl, (createFolderRoute st actor name parentId now).2.1 = some fl ∧
        fl.name = name ∧ fl.createdAt = now ∧ fl.updatedAt = now ∧ fl.isFolder = true ∧
        fl ∈ (createFolderRoute st actor name parentId now).2.2.files) ∧
    (∀ originalname mimetype size relativePath,
      (uploadRoute st actor originalname mimetype size relativePath parentId now).1
        = .created ∧
      ∃ fl, (uploadRoute st actor originalname mimetype size relativePath parentId now).2.1
          = some fl ∧
        fl.name = originalname ∧ fl.createdAt = now ∧ fl.updatedAt = now ∧
        fl.isFolder = false ∧ fl.parentId = parentId ∧
        fl ∈ (uploadRoute st actor originalname mimetype size relativePath parentId
          now).2.2.files) := by
  have hmem : ∀ ins : InsertFile, (st.createFile ins now).1 ∈ (st.createFile ins now).2.files := by
    intro ins
    show _ ∈ mapSet File.id st.files _
    rw [mapSet_fresh]
    · exact List.mem_append_right _ (List.mem_singleton.mpr rfl)
    · intro x hx
      have := hfresh x hx
      show ¬ x.id = st.fileIdCounter
      omega
  refine ⟨?_, ?_, ?_⟩
  · intro hname
    unfold createFolderRoute
    rw [if_pos (by simp [hname])]
  · intro hname
    unfold createFolderRoute
    rw [if_neg (by simpa using hname)]
    exact ⟨rfl, _, rfl, rfl, rfl, rfl, rfl, hmem _⟩
  · intro originalname mimetype size relativePath
    unfold uploadRoute
    exact ⟨rfl, _, rfl, rfl, rfl, rfl, rfl, rfl, hmem _⟩

/-- Witness for C8 (amended): on the fixture, creating a folder under the
dangling parent 999 succeeds, and the empty name is rejected. -/
theorem C8_create_no_validation_witness :
    (createFolderRoute c8St ⟨1, "alice", "pw", "Alice", "editor"⟩ "x" (some 999) 7).1
      = .created ∧
    createFolderRoute c8St ⟨1, "alice", "pw", "Alice", "editor"⟩ "" (some 999) 7
      = (.badRequest, none, c8St) := by
  have h := C8_create_no_validation c8St ⟨1, "alice", "pw", "Alice", "editor"⟩ "x"
    (some 999) 7 (by intro f hf; cases hf)
  have h2 := C8_create_no_validation c8St ⟨1, "alice", "pw", "Alice", "editor"⟩ ""
    (some 999) 7 (by intro f hf; cases hf)
  exact ⟨(h.2.1 (by decide)).1, h2.1 rfl⟩

/-- Uniqueness invariant on usernames: no two stored users' usernames are
equal up to letter case. -/
def caseInsensitiveUnique (users : List User) : Prop :=
  users.Pairwise (fun a b => ¬ a.username.toLower = b.username.toLower)

/-- Counter invariant: every stored user id is below the id counter. -/
def userIdsFresh (st : MemStorage) : Prop := ∀ u ∈ st.users, u.id < st.userIdCounter

/-- A sequence of user-creation requests run through the route. -/
def runCreateUsers (st : MemStorage) : List (User × InsertUser × Nat) → MemStorage
  | [] => st
  | (a, r, t) :: rest => runCreateUsers (createUserRoute st a r t).2 rest

/-- Internal shape of the state after a successful user creation. -/
theorem createUserRoute_users (st : MemStorage) (actor : User) (req : InsertUser)
    (now : Nat) (hfresh : userIdsFresh st)
    (hnone : st.getUserByUsername req.username = none) :
    (createUserRoute st actor req now).1 = .created ∧
    (createUserRoute st actor req now).2.users
      = st.users ++ [⟨st.userIdCounter, req.username, req.password, req.name, req.role⟩] ∧
    (createUserRoute st actor req now).2.userIdCounter = st.userIdCounter + 1 := by
  unfold createUserRoute
  rw [hnone]
  refine ⟨rfl, ?_, rfl⟩
  show mapSet User.id st.users ⟨st.userIdCounter, req.username, req.password,
    req.name, req.role⟩ = _
  rw [mapSet_fresh]
  intro x hx
  have := hfresh x hx
  show ¬ x.id = st.userIdCounter
  omega

/-- Preservation step used by C9: one route call keeps the uniqueness and
freshness invariants. -/
theorem createUserRoute_preserves (st : MemStorage) (actor : User) (req : InsertUser)
    (now : Nat) (huniq : caseInsensitiveUnique st.users) (hfresh : userIdsFresh st) :
    caseInsensitiveUnique (createUserRoute st actor req now).2.users ∧
    userIdsFresh (createUserRoute st actor req now).2 := by
  cases hg : st.getUserByUsername req.username with
  | some u =>
    have : createUserRoute st actor req now = (.badRequest, st) := by
      unfold createUserRoute
      rw [hg]
    rw [this]
    exact ⟨huniq, hfresh⟩
  | none =>
    obtain ⟨_, husers, hcnt⟩ := createUserRoute_users st actor req now hfresh hg
    constructor
    · rw [husers]
      unfold caseInsensitiveUnique
      rw [List.pairwise_append]
      refine ⟨huniq, List.pairwise_singleton _ _, ?_⟩
      intro a ha b hb
      rw [List.mem_singleton] at hb
      subst hb
      have := List.find?_eq_none.mp hg a ha
      simpa using this
    · intro u hu
      rw [husers] at hu
      rw [hcnt]
      rcases List.mem_append.mp hu with h | h
      · have := hfresh u h
        omega
      · rw [List.mem_singleton] at h
        subst h
        show st.userIdCounter < st.userIdCounter + 1
        omega

/-- C9: user creation through the admin route fails with Conflict whenever
a stored user's username matches the requested one case-insensitively and
then changes nothing; otherwise the user is created; the
case-insensitive-uniqueness invariant is preserved by every call, and
hence by every sequence of creation calls — no sequence produces two
users whose usernames differ only in letter case. -/
theorem C9_username_conflict (st : MemStorage) (actor : User) (req : InsertUser)
    (now : Nat) :
    ((∃ u ∈ st.users, u.username.toLower = req.username.toLower) →
      createUserRoute st actor req now = (.badRequest, st)) ∧
    ((∀ u ∈ st.users, ¬ u.username.toLower = req.username.toLower) → userIdsFresh st →
      (createUserRoute st actor req now).1 = .created ∧
      ∃ u ∈ (createUserRoute st actor req now).2.users, u.username = req.username) ∧
    (caseInsensitiveUnique st.users → userIdsFresh st →
      caseInsensitiveUnique (createUserRoute st actor req now).2.users) ∧
    (∀ ops, caseInsensitiveUnique st.users → userIdsFresh st →
      caseInsensitiveUnique (runCreateUsers st ops).users) := by
  refine ⟨?_, ?_, ?_, ?_⟩
  · intro ⟨u, hu, hul⟩
    cases hg : st.getUserByUsername req.username with
    | some v =>
      unfold createUserRoute
      rw [hg]
    | none =>
      exfalso
      have := List.find?_eq_none.mp hg u hu
      simp [hul] at this
  · intro hall hfresh
    have hg : st.getUserByUsername req.username = none := by
      rw [MemStorage.getUserByUsername, List.find?_eq_none]
      intro u hu
      simpa using hall u hu
    obtain ⟨hout, husers, _⟩ := createUserRoute_users st actor req now hfresh hg
    refine ⟨hout, ⟨st.userIdCounter, req.username, req.password, req.name, req.role⟩, ?_, rfl⟩
    rw [husers]
    exact List.mem_append_right _ (List.mem_singleton.mpr rfl)
  · intro huniq hfresh
    exact (createUserRoute_preserves st actor req now huniq hfresh).1
  · intro ops
    induction ops generalizing st with
    | nil =>
      intro huniq _
      exact huniq
    | cons op rest ih =>
      intro huniq hfresh
      obtain ⟨a, r, t⟩ := op
      have h := createUserRoute_preserves st a r t huniq hfresh
      exact ih (createUserRoute st a r t).2 h.1 h.2

/-- Empty fixture store for the C9 creation branch. -/
def c9EmptySt : MemStorage := ⟨[], [], [], [], 1, 1, 1, 1⟩

/-- Witness for C9: re-creating "alice" on a store already holding "alice"
is rejected as a conflict and changes nothing, while creating a user on an
empty store succeeds. -/
theorem C9_username_conflict_witness :
    (createUserRoute c8St ⟨1, "alice", "pw", "Alice", "editor"⟩
      ⟨"alice", "pw2", "A", "viewer"⟩ 9) = (.badRequest, c8St) ∧
    (createUserRoute c9EmptySt ⟨1, "alice", "pw", "Alice", "editor"⟩
      ⟨"bob", "pw2", "B", "viewer"⟩ 9).1 = .created := by
  constructor
  · exact (C9_username_conflict c8St _ _ 9).1
      ⟨⟨1, "alice", "pw", "Alice", "editor"⟩, by decide, rfl⟩
  · exact ((C9_username_conflict c9EmptySt _ _ 9).2.1
      (by intro u hu; cases hu) (by intro u hu; cases hu)).1

/-- Descending-timestamp sortedness. -/
def tsSortedDesc (l : List ActivityLog) : Prop :=
  l.Pairwise (fun a b => b.timestamp ≤ a.timestamp)

/-- Members of an insertion are the inserted record or old members. -/
theorem mem_insertTsDesc {r y : ActivityLog} {l : List ActivityLog}
    (h : y ∈ insertTsDesc r l) : y = r ∨ y ∈ l := by
  induction l with
  | nil =>
    rw [insertTsDesc] at h
    rcases List.mem_singleton.mp h with rfl
    exact Or.inl rfl
  | cons x xs ih =>
    rw [insertTsDesc] at h
    split at h
    · rcases List.mem_cons.mp h with rfl | h2
      · exact Or.inr (List.mem_cons_self _ _)
      · rcases ih h2 with h3 | h3
        · exact Or.inl h3
        · exact Or.inr (List.mem_cons_of_mem _ h3)
    · rcases List.mem_cons.mp h with rfl | h2
      · exact Or.inl rfl
      · exact Or.inr h2

/-- Insertion preserves descending sortedness. -/
theorem insertTsDesc_sorted (r : ActivityLog) (l : List ActivityLog)
    (h : tsSortedDesc l) : tsSortedDesc (insertTsDesc r l) := by
  unfold tsSortedDesc at h ⊢
  induction l with
  | nil =>
    rw [insertTsDesc]
    exact List.pairwise_singleton _ _
  | cons x xs ih =>
    rw [insertTsDesc]
    split
    · rename_i hlt
      rw [List.pairwise_cons] at h ⊢
      refine ⟨?_, ih h.2⟩
      intro y hy
      rcases mem_insertTsDesc hy with rfl | h2
      · omega
      · exact h.1 y h2
    · rename_i hge
      rw [List.pairwise_cons]
      refine ⟨?_, h⟩
      intro y hy
      rcases List.mem_cons.mp hy with rfl | h2
      · omega
      · rw [List.pairwise_cons] at h
        have := h.1 y h2
        omega

/-- The stable descending sort is sorted. -/
theorem sortTsDesc_sorted (l : List ActivityLog) : tsSortedDesc (sortTsDesc l) := by
  induction l with
  | nil => exact List.Pairwise.nil
  | cons x xs ih =>
    rw [sortTsDesc]
    exact insertTsDesc_sorted x _ ih

/-- Sorting three records with strictly increasing timestamps reverses
them. -/
theorem sortTsDesc_three (r1 r2 r3 : ActivityLog)
    (h12 : r1.timestamp < r2.timestamp) (h23 : r2.timestamp < r3.timestamp) :
    sortTsDesc [r1, r2, r3] = [r3, r2, r1] := by
  have h13 : r1.timestamp < r3.timestamp := Nat.lt_trans h12 h23
  rw [sortTsDesc, sortTsDesc, sortTsDesc, sortTsDesc, insertTsDesc, insertTsDesc,
    if_pos h23, insertTsDesc, insertTsDesc, if_pos h13, insertTsDesc, if_pos h12,
    insertTsDesc]

/-- C10: the audit log assigns the record's timestamp itself — the insert
payload carries none and the stored record's timestamp is the log's own
clock at append time — and both listing operations return records sorted
by descending timestamp; appending three records at times t1 < t2 < t3 to
an empty log makes `getActivityLogs` return them newest-first. -/
theorem C10_audit_log_ordering (st : MemStorage) :
    (∀ ins now, ((st.logActivity ins now).1).timestamp = now ∧
      ((st.logActivity ins now).1).userId = ins.userId ∧
      ((st.logActivity ins now).1).action = ins.action ∧
      ((st.logActivity ins now).1).details = ins.details) ∧
    tsSortedDesc st.getActivityLogs ∧
    (∀ uid, tsSortedDesc (st.getUserActivityLogs uid)) ∧
    (∀ i1 i2 i3 t1 t2 t3, st.activityLogs = [] → t1 < t2 → t2 < t3 →
      (((st.logActivity i1 t1).2.logActivity i2 t2).2.logActivity i3 t3).2.getActivityLogs
        = [(((st.logActivity i1 t1).2.logActivity i2 t2).2.logActivity i3 t3).1,
           ((st.logActivity i1 t1).2.logActivity i2 t2).1,
           (st.logActivity i1 t1).1] ∧
      (((st.logActivity i1 t1).2.logActivity i2 t2).2.logActivity i3 t3).1.timestamp = t3 ∧
      ((st.logActivity i1 t1).2.logActivity i2 t2).1.timestamp = t2 ∧
      (st.logActivity i1 t1).1.timestamp = t1) := by
  refine ⟨fun ins now => ⟨rfl, rfl, rfl, rfl⟩, sortTsDesc_sorted _,
    fun uid => sortTsDesc_sorted _, ?_⟩
  intro i1 i2 i3 t1 t2 t3 hempty h12 h23
  refine ⟨?_, rfl, rfl, rfl⟩
  set c := st.activityLogIdCounter with hc
  have e1 : mapSet ActivityLog.id ([] : List ActivityLog)
      ⟨c, i1.userId, i1.action, i1.details, t1⟩
      = [⟨c, i1.userId, i1.action, i1.details, t1⟩] :=
    mapSet_fresh (by intro x hx; cases hx)
  have e2 : mapSet ActivityLog.id [(⟨c, i1.userId, i1.action, i1.details, t1⟩ : ActivityLog)]
      ⟨c + 1, i2.userId, i2.action, i2.details, t2⟩
      = [⟨c, i1.userId, i1.action, i1.details, t1⟩,
         ⟨c + 1, i2.userId, i2.action, i2.details, t2⟩] := by
    refine mapSet_fresh ?_
    intro x hx
    rcases List.mem_singleton.mp hx with rfl
    show ¬ c = c + 1
    omega
  have e3 : mapSet ActivityLog.id
      [(⟨c, i1.userId, i1.action, i1.details, t1⟩ : ActivityLog),
       ⟨c + 1, i2.userId, i2.action, i2.details, t2⟩]
      ⟨c + 2, i3.userId, i3.action, i3.details, t3⟩
      = [⟨c, i1.userId, i1.action, i1.details, t1⟩,
         ⟨c + 1, i2.userId, i2.action, i2.details, t2⟩,
         ⟨c + 2, i3.userId, i3.action, i3.details, t3⟩] := by
    refine mapSet_fresh ?_
    intro x hx
    rcases List.mem_cons.mp hx with rfl | hx2
    · show ¬ c = c + 2
      omega
    · rcases List.mem_singleton.mp hx2 with rfl
      show ¬ c + 1 = c + 2
      omega
  have hlogs : (((st.logActivity i1 t1).2.logActivity i2 t2).2.logActivity i3 t3).2.activityLogs
      = [⟨c, i1.userId, i1.action, i1.details, t1⟩,
         ⟨c + 1, i2.userId, i2.action, i2.details, t2⟩,
         ⟨c + 2, i3.userId, i3.action, i3.details, t3⟩] := by
    show mapSet ActivityLog.id (mapSet ActivityLog.id (mapSet ActivityLog.id st.activityLogs
      ⟨c, i1.userId, i1.action, i1.details, t1⟩) ⟨c + 1, i2.userId, i2.action, i2.details, t2⟩)
      ⟨c + 2, i3.userId, i3.action, i3.details, t3⟩ = _
    rw [hempty, e1, e2, e3]
  show sortTsDesc _ = _
  rw [hlogs]
  exact sortTsDesc_three _ _ _ h12 h23

/-- Witness for C10: three concrete appends at times 1 < 2 < 3 on an empty
log come back newest-first with the log-assigned timestamps. -/
theorem C10_audit_log_ordering_witness :
    ((((c9EmptySt.logActivity ⟨1, "A", "a"⟩ 1).2.logActivity ⟨1, "B", "b"⟩ 2).2.logActivity
        ⟨1, "C", "c"⟩ 3).2.getActivityLogs).map ActivityLog.timestamp = [3, 2, 1] := by
  have h := (C10_audit_log_ordering c9EmptySt).2.2.2 ⟨1, "A", "a"⟩ ⟨1, "B", "b"⟩ ⟨1, "C", "c"⟩
    1 2 3 rfl (by omega) (by omega)
  rw [h.1]
  rfl

/-- Counter invariant: every stored grant id is below the id counter. -/
def permIdsFresh (st : MemStorage) : Prop :=
  ∀ p ∈ st.filePermissions, p.id < st.filePermissionIdCounter

/-- Pair-uniqueness invariant: at most one grant per
`(fileId, granteeUserId)` pair. -/
def uniquePairs (perms : List FilePermission) : Prop :=
  perms.Pairwise (fun a b => ¬ (a.fileId = b.fileId ∧ a.userId = b.userId))

/-- The grant created by the share route's create branch. -/
def freshGrant (st : MemStorage) (fileId : Nat) (req : ShareRequest) : FilePermission :=
  ⟨st.filePermissionIdCounter, fileId, req.userId,
   req.canRead.getD true, req.canWrite.getD false,
   req.canDelete.getD false, req.canShare.getD false⟩

/-- An owner or an admin passes the share gate for any grant state. -/
theorem gate_of_owner {perms : List FilePermission} {actor : User} {file : File}
    (h : actor.id = file.ownerId ∨ actor.role = adminRole)
    (flag : FilePermission → Bool) : grantGateAllows perms actor file flag = true := by
  unfold grantGateAllows
  rcases h with h | h <;> rw [if_pos (by simp [h])]

/-- Effect of the share route's create branch on the state. -/
theorem shareRoute_create (st : MemStorage) (actor : User) (fileId : Nat)
    (req : ShareRequest) (now : Nat) (file : File) (tuser : User)
    (huid : ¬ req.userId = 0)
    (hgf : st.getFile fileId = some file)
    (hgate : grantGateAllows st.filePermissions actor file (fun p => p.canShare) = true)
    (htarget : st.getUser req.userId = some tuser)
    (hex : st.getUserFilePermission fileId req.userId = none)
    (hfresh : permIdsFresh st) :
    (shareRoute st actor fileId req now).1 = .created ∧
    (shareRoute st actor fileId req now).2.filePermissions
      = st.filePermissions ++ [freshGrant st fileId req] ∧
    (shareRoute st actor fileId req now).2.files = st.files ∧
    (shareRoute st actor fileId req now).2.users = st.users ∧
    (shareRoute st actor fileId req now).2.filePermissionIdCounter
      = st.filePermissionIdCounter + 1 := by
  unfold shareRoute
  rw [if_neg (by simpa using huid)]
  simp only [hgf]
  rw [if_neg (by simp [hgate])]
  simp only [htarget, hex]
  refine ⟨trivial, ?_, rfl, rfl, rfl⟩
  show mapSet FilePermission.id st.filePermissions _ = _
  refine mapSet_fresh ?_
  intro x hx
  have := hfresh x hx
  show ¬ x.id = st.filePermissionIdCounter
  omega

/-- Fixture owner for C5. -/
def c5Owner : User := ⟨1, "alice", "pw", "Alice", "editor"⟩

/-- Fixture store for C5: the owner and one leaf file they own. -/
def c5St : MemStorage :=
  ⟨[c5Owner], [⟨10, "doc", "d.txt", "text", 3, 1, none, false, 0, 0⟩], [], [], 2, 11, 1, 1⟩

/-- Counterexample to C5 as stated: a single share request targeting the
file's own owner is neither rejected nor no-opped — after it, a
PermissionGrant whose `granteeUserId` equals the file's `ownerId` sits in
the store. -/
theorem C5_counterexample :
    ∃ p ∈ (shareRoute c5St c5Owner 10 ⟨1, some true, none, none, none⟩ 5).2.filePermissions,
      p.fileId = 10 ∧ p.userId = 1 ∧ ∃ f ∈ c5St.files, f.id = 10 ∧ f.ownerId = 1 := by
  decide

/-- C5 amended: neither the share route nor the permission store checks the
target against the file's owner: a share request whose target IS the
file's owner passes every check and creates a grant with
`granteeUserId = ownerId` like any other request. -/
theorem C5_owner_grant_created (st : MemStorage) (actor : User) (fileId : Nat)
    (req : ShareRequest) (now : Nat) (file : File) (tuser : User)
    (hguid : req.userId = file.ownerId) (hown0 : ¬ file.ownerId = 0)
    (hgf : st.getFile fileId = some file)
    (howner : actor.id = file.ownerId ∨ actor.role = adminRole)
    (htarget : st.getUser req.userId = some tuser)
    (hex : st.getUserFilePermission fileId req.userId = none)
    (hfresh : permIdsFresh st) :
    (shareRoute st actor fileId req now).1 = .created ∧
    ∃ p ∈ (shareRoute st actor fileId req now).2.filePermissions,
      p.fileId = fileId ∧ p.userId = file.ownerId := by
  have hgate : grantGateAllows st.filePermissions actor file (fun p => p.canShare) = true :=
    gate_of_owner howner _
  obtain ⟨hout, hperms, _, _, _⟩ := shareRoute_create st actor fileId req now file tuser
    (by rw [hguid]; exact hown0) hgf hgate htarget hex hfresh
  refine ⟨hout, freshGrant st fileId req, ?_, rfl, ?_⟩
  · rw [hperms]
    exact List.mem_append_right _ (List.mem_singleton.mpr rfl)
  · show req.userId = file.ownerId
    exact hguid

/-- Witness for C5 (amended): on the fixture, the owner sharing file 10
with themselves gets 201 Created. -/
theorem C5_owner_grant_created_witness :
    (shareRoute c5St c5Owner 10 ⟨1, some true, none, none, none⟩ 5).1 = .created := by
  exact (C5_owner_grant_created c5St c5Owner 10 ⟨1, some true, none, none, none⟩ 5
    ⟨10, "doc", "d.txt", "text", 3, 1, none, false, 0, 0⟩ c5Owner
    rfl (by decide) rfl (Or.inl rfl) rfl rfl
    (by intro p hp; cases hp)).1

/-- Option-merge absorption used by the share route's flag merging. -/
theorem optGetD_getD (o : Option Bool) (d : Bool) : o.getD (o.getD d) = o.getD d := by
  cases o <;> rfl

/-- Replacing the grant with a given id by a record carrying the same
`(fileId, userId)` pair preserves pair-uniqueness. -/
theorem uniquePairs_update (perms : List FilePermission) (pid : Nat) (m : FilePermission)
    (huniq : uniquePairs perms) (hn : nodupPermIds perms)
    (hm : ∀ x ∈ perms, x.id = pid → m.fileId = x.fileId ∧ m.userId = x.userId) :
    uniquePairs (perms.map (fun q => if q.id == pid then m else q)) := by
  unfold uniquePairs at huniq ⊢
  rw [List.pairwise_map]
  refine huniq.imp_of_mem ?_
  intro a b ha hb hab hcon
  apply hab
  rcases hcon with ⟨h1, h2⟩
  by_cases hja : (a.id == pid) = true
  · rw [if_pos hja] at h1 h2
    have hma := hm a ha (by simpa using hja)
    by_cases hjb : (b.id == pid) = true
    · rw [if_pos hjb] at h1 h2
      have hmb := hm b hb (by simpa using hjb)
      exact ⟨hma.1.symm.trans hmb.1, hma.2.symm.trans hmb.2⟩
    · rw [if_neg hjb] at h1 h2
      exact ⟨hma.1.symm.trans h1, hma.2.symm.trans h2⟩
  · rw [if_neg hja] at h1 h2
    by_cases hjb : (b.id == pid) = true
    · rw [if_pos hjb] at h1 h2
      have hmb := hm b hb (by simpa using hjb)
      exact ⟨h1.trans hmb.1, h2.trans hmb.2⟩
    · rw [if_neg hjb] at h1 h2
      exact ⟨h1, h2⟩

/-- One route call preserves pair-uniqueness of the grant table. -/
theorem shareRoute_preserves_uniquePairs (st : MemStorage) (actor : User) (fileId : Nat)
    (req : ShareRequest) (now : Nat)
    (huniq : uniquePairs st.filePermissions) (hn : nodupPermIds st.filePermissions)
    (hfresh : permIdsFresh st) :
    uniquePairs (shareRoute st actor fileId req now).2.filePermissions := by
  unfold shareRoute
  by_cases huid : (req.userId == 0) = true
  · rw [if_pos huid]
    exact huniq
  rw [if_neg huid]
  cases hgf : st.getFile fileId with
  | none => exact huniq
  | some file =>
    dsimp only
    by_cases hgate : ¬ grantGateAllows st.filePermissions actor file
        (fun p => p.canShare) = true
    · rw [if_pos hgate]
      exact huniq
    rw [if_neg hgate]
    cases htarget : st.getUser req.userId with
    | none => exact huniq
    | some tuser =>
      cases hex : st.getUserFilePermission fileId req.userId with
      | none =>
        show uniquePairs (mapSet FilePermission.id st.filePermissions
          (freshGrant st fileId req))
        rw [mapSet_fresh (fun x hx => by
          have := hfresh x hx
          show ¬ x.id = st.filePermissionIdCounter
          omega)]
        unfold uniquePairs at huniq ⊢
        rw [List.pairwise_append]
        refine ⟨huniq, List.pairwise_singleton _ _, ?_⟩
        intro a ha b hb
        rw [List.mem_singleton] at hb
        subst hb
        intro ⟨hf1, hu1⟩
        have := List.find?_eq_none.mp hex a ha
        simp only [Bool.and_eq_true, beq_iff_eq, not_and] at this
        exact this (by simpa using hf1) (by simpa using hu1)
      | some p0 =>
        have hp0mem : p0 ∈ st.filePermissions := List.mem_of_find?_eq_some hex
        cases hfq : st.filePermissions.find? (fun p => p.id == p0.id) with
        | none =>
          exfalso
          have := List.find?_eq_none.mp hfq p0 hp0mem
          simp at this
        | some q0 =>
          have hq0mem : q0 ∈ st.filePermissions := List.mem_of_find?_eq_some hfq
          have hq0id : q0.id = p0.id := by simpa using List.find?_some hfq
          have hq0 : q0 = p0 := nodup_key_inj hn hq0mem hp0mem hq0id
          simp only [MemStorage.updateFilePermission, hfq]
          refine uniquePairs_update st.filePermissions p0.id _ huniq hn ?_
          intro x hx hxid
          have hxp0 : x = p0 := nodup_key_inj hn hx hp0mem hxid
          subst hxp0
          rw [hq0]
          exact ⟨rfl, rfl⟩

/-- A second, identical share request leaves the grant table exactly as the
first left it: the route finds the grant it created, merges the same flags
into it, and writes back an unchanged row. -/
theorem shareRoute_second_idem (st : MemStorage) (actor : User) (fileId : Nat)
    (req : ShareRequest) (now now2 : Nat) (file : File) (tuser : User)
    (huid : ¬ req.userId = 0)
    (hgf : st.getFile fileId = some file)
    (howner : actor.id = file.ownerId ∨ actor.role = adminRole)
    (htarget : st.getUser req.userId = some tuser)
    (hex : st.getUserFilePermission fileId req.userId = none)
    (hfresh : permIdsFresh st) :
    (shareRoute (shareRoute st actor fileId req now).2 actor fileId req now2).1
      = .created ∧
    (shareRoute (shareRoute st actor fileId req now).2 actor fileId req now2).2.filePermissions
      = (shareRoute st actor fileId req now).2.filePermissions := by
  obtain ⟨hout, hperms, hfiles, husers, hcnt⟩ := shareRoute_create st actor fileId req now
    file tuser huid hgf (gate_of_owner howner _) htarget hex hfresh
  set st1 := (shareRoute st actor fileId req now).2 with hst1
  have hgf1 : st1.getFile fileId = some file := by
    show st1.files.find? _ = _
    rw [hfiles]
    exact hgf
  have htarget1 : st1.getUser req.userId = some tuser := by
    show st1.users.find? _ = _
    rw [husers]
    exact htarget
  have hfind1 : st1.getUserFilePermission fileId req.userId
      = some (freshGrant st fileId req) := by
    show st1.filePermissions.find? _ = _
    rw [hperms, List.find?_append]
    have h0 : st.filePermissions.find?
        (fun p => p.fileId == fileId && p.userId == req.userId) = none := hex
    rw [h0]
    simp [freshGrant]
  have hfid : st1.filePermissions.find?
      (fun p => p.id == (freshGrant st fileId req).id) = some (freshGrant st fileId req) := by
    rw [hperms, List.find?_append]
    have h0 : st.filePermissions.find?
        (fun p => p.id == (freshGrant st fileId req).id) = none := by
      rw [List.find?_eq_none]
      intro p hp
      have := hfresh p hp
      show ¬ (p.id == st.filePermissionIdCounter) = true
      simp only [beq_iff_eq]
      omega
    rw [h0]
    simp
  have hm : ({ freshGrant st fileId req with
      canRead := req.canRead.getD ((freshGrant st fileId req).canRead),
      canWrite := req.canWrite.getD ((freshGrant st fileId req).canWrite),
      canDelete := req.canDelete.getD ((freshGrant st fileId req).canDelete),
      canShare := req.canShare.getD ((freshGrant st fileId req).canShare) } : FilePermission)
      = freshGrant st fileId req := by
    show ({ freshGrant st fileId req with
      canRead := req.canRead.getD (req.canRead.getD true),
      canWrite := req.canWrite.getD (req.canWrite.getD false),
      canDelete := req.canDelete.getD (req.canDelete.getD false),
      canShare := req.canShare.getD (req.canShare.getD false) } : FilePermission) = _
    rw [optGetD_getD, optGetD_getD, optGetD_getD, optGetD_getD]
    rfl
  have hmap : st1.filePermissions.map
      (fun q => if q.id == (freshGrant st fileId req).id
        then freshGrant st fileId req else q) = st1.filePermissions := by
    have hpt : ∀ q ∈ st1.filePermissions,
        (if q.id == (freshGrant st fileId req).id
          then freshGrant st fileId req else q) = id q := by
      intro q hq
      rw [hperms] at hq
      rcases List.mem_append.mp hq with h | h
      · rw [if_neg]
        · rfl
        · have := hfresh q h
          show ¬ (q.id == st.filePermissionIdCounter) = true
          simp only [beq_iff_eq]
          omega
      · rcases List.mem_singleton.mp h with rfl
        rw [if_pos (by simp)]
        rfl
    exact (List.map_congr_left hpt).trans (List.map_id _)
  have hupd : st1.updateFilePermission (freshGrant st fileId req).id
      ⟨req.canRead.getD ((freshGrant st fileId req).canRead),
       req.canWrite.getD ((freshGrant st fileId req).canWrite),
       req.canDelete.getD ((freshGrant st fileId req).canDelete),
       req.canShare.getD ((freshGrant st fileId req).canShare)⟩
      = some (freshGrant st fileId req, st1) := by
    unfold MemStorage.updateFilePermission
    rw [hfid]
    dsimp only
    rw [hm, hmap]
  have hroute : shareRoute st1 actor fileId req now2
      = (.created, (st1.logActivity
          ⟨actor.id, "SHARE_FILE",
           "Shared " ++ file.name ++ " with user " ++ tuser.username⟩ now2).2) := by
    unfold shareRoute
    rw [if_neg (by simpa using huid)]
    simp only [hgf1]
    rw [if_neg (by simp [gate_of_owner howner])]
    simp only [htarget1, hfind1, hupd]
  rw [hroute]
  exact ⟨rfl, rfl⟩

/-- C6: at most one PermissionGrant per `(fileId, granteeUserId)` pair —
the share route updates an existing grant instead of duplicating it, so
pair-uniqueness of the grant table is preserved by every call; and the
upsert is idempotent for identical flag sets: a first call creates exactly
one row holding the resolved flags, and a second call with the same flags
leaves the grant table bit-for-bit unchanged, still with exactly that one
row for the pair. -/
theorem C6_share_upsert_unique (st : MemStorage) (actor : User) (fileId : Nat)
    (req : ShareRequest) (now now2 : Nat) :
    (uniquePairs st.filePermissions → nodupPermIds st.filePermissions → permIdsFresh st →
      uniquePairs (shareRoute st actor fileId req now).2.filePermissions) ∧
    (∀ file tuser, ¬ req.userId = 0 → st.getFile fileId = some file →
      (actor.id = file.ownerId ∨ actor.role = adminRole) →
      st.getUser req.userId = some tuser →
      st.getUserFilePermission fileId req.userId = none →
      permIdsFresh st →
      (shareRoute st actor fileId req now).1 = .created ∧
      (shareRoute st actor fileId req now).2.filePermissions.filter
        (fun p => p.fileId == fileId && p.userId == req.userId)
        = [freshGrant st fileId req] ∧
      (shareRoute (shareRoute st actor fileId req now).2 actor fileId req now2).1
        = .created ∧
      (shareRoute (shareRoute st actor fileId req now).2 actor fileId req now2).2.filePermissions
        = (shareRoute st actor fileId req now).2.filePermissions) := by
  constructor
  · intro huniq hn hfresh
    exact shareRoute_preserves_uniquePairs st actor fileId req now huniq hn hfresh
  · intro file tuser huid hgf howner htarget hex hfresh
    obtain ⟨hout, hperms, _, _, _⟩ := shareRoute_create st actor fileId req now
      file tuser huid hgf (gate_of_owner howner _) htarget hex hfresh
    obtain ⟨hout2, hperms2⟩ := shareRoute_second_idem st actor fileId req now now2
      file tuser huid hgf howner htarget hex hfresh
    refine ⟨hout, ?_, hout2, hperms2⟩
    rw [hperms, List.filter_append]
    have h0 : st.filePermissions.filter
        (fun p => p.fileId == fileId && p.userId == req.userId) = [] := by
      rw [List.filter_eq_nil_iff]
      intro p hp
      exact List.find?_eq_none.mp hex p hp
    rw [h0]
    simp [freshGrant]

/-- Fixture grantee for C6. -/
def c6Bob : User := ⟨2, "bob", "pw", "Bob", "viewer"⟩

/-- Fixture store for C6: the owner, a grantee, and one file. -/
def c6St : MemStorage :=
  ⟨[c5Owner, c6Bob], [⟨10, "doc", "d.txt", "text", 3, 1, none, false, 0, 0⟩],
   [], [], 3, 11, 1, 1⟩

/-- Witness for C6 on the fixture: sharing file 10 with Bob twice with the
same flags creates exactly one grant row, untouched by the second call. -/
theorem C6_share_upsert_unique_witness :
    (shareRoute c6St c5Owner 10 ⟨2, some true, some true, none, none⟩ 5).2.filePermissions.filter
      (fun p => p.fileId == 10 && p.userId == 2)
      = [⟨1, 10, 2, true, true, false, false⟩] ∧
    (shareRoute (shareRoute c6St c5Owner 10 ⟨2, some true, some true, none, none⟩ 5).2
      c5Owner 10 ⟨2, some true, some true, none, none⟩ 6).2.filePermissions
      = (shareRoute c6St c5Owner 10 ⟨2, some true, some true, none, none⟩ 5).2.filePermissions := by
  have h := (C6_share_upsert_unique c6St c5Owner 10 ⟨2, some true, some true, none, none⟩ 5 6).2
    ⟨10, "doc", "d.txt", "text", 3, 1, none, false, 0, 0⟩ c6Bob
    (by decide) rfl (Or.inl rfl) rfl rfl (by intro p hp; cases hp)
  exact ⟨h.2.1, h.2.2.2⟩
